import Mathlib

/-!
# Verification of the `y.granular` granular-synthesis engine

Shallow embedding of the C sources `source/granular.c`, `source/linked_list.c`
and `source/linked_list.h`, together with proofs about the embedded
definitions.

Conventions:
* `t_int16` / `t_int32` values are modelled as `ℤ` (or `ℕ` where the source
  guarantees non-negativity); `t_double` values are modelled as `ℚ`, with the
  C `(t_int32)` cast modelled as truncation toward zero (`ratTrunc`).
* C `while` loops become structural recursion (on an explicit bound that the
  loop variable provides) or well-founded recursion; where a loop in the C
  would diverge (e.g. a non-positive divisor), the Lean definition carries the
  positivity condition in its guard and the corresponding theorem carries it
  as a hypothesis.
* The intrusive linked list of `linked_list.c` is modelled exactly as in the
  source: one flat memory `arr : ℕ → ℤ` of which cell `len` is `first_used`
  and cell `len + 1` is `first_empty`; a C node pointer is a cell number.
-/

set_option autoImplicit false

namespace Granular

/-! ## Constants (granular.c lines 27-45, linked_list.h lines 14-20) -/

def ENV_N_SMP : ℤ := 1000

def LIST_END : ℤ := -1
def LIST_ERR_FULL : ℤ := -2
def LIST_ERR_EMPTY : ℤ := -3
def LIST_ERR_ARG : ℤ := -6
def LIST_NOT_FOUND : ℤ := -7

def ERR_ARG : ℤ := -1

/-- The C `(t_int32)` cast of a `double`: truncation toward zero. -/
def ratTrunc (q : ℚ) : ℤ := if q < 0 then ⌈q⌉ else ⌊q⌋

/-! ## Output finisher (granular.c lines 657-663)

```c
while (n--) {
  if (*out > 1)  { *out = 2 - *out; }
  if (*out < -1) { *out = -2 - *out; }
  out++; }
```
The two `if`s are sequential (not `else if`): the second one tests the value
already rewritten by the first one. -/

def fold (v : ℚ) : ℚ :=
  let v1 := if 1 < v then 2 - v else v
  if v1 < -1 then -2 - v1 else v1

/-! ## Seeder begin clamp (granular.c lines 1163-1175 `granular_begin`,
identical clamp in `granular_set_seeder` lines 980-985)

```c
x->seeders_arr[index].src_begin = (t_int32)(atom_getfloat(argv + 1) * x->seeders_arr[index].buff_n_frm);
if (x->seeders_arr[index].src_begin < 0) { ... = 0; }
if (... src_begin + ... src_len > ... buff_n_frm) { ... = ... buff_n_frm - ... src_len; }
``` -/

def granular_begin (frac : ℚ) (buff_n_frm src_len : ℤ) : ℤ :=
  let b := ratTrunc (frac * buff_n_frm)
  let b1 := if b < 0 then 0 else b
  if b1 + src_len > buff_n_frm then buff_n_frm - src_len else b1

/-! ## Control-path argument checking (granular.c lines 911-936 and 1150-1157)

`granular_check_args` validates argument count, atom type and index range.
`granular_ampl` (like the other per-field setters `begin`, `length`, `shift`,
`period`, `speed`, `period_rand`) does NOT call it: it reads the index and
writes `x->seeders_arr[index].ampl` unconditionally.  The seeder array is
modelled as the total map `ampls : ℤ → ℚ`, so that a write at an index
outside `0 .. seeders_max - 1` is visible as a state mutation. -/

def granular_check_args (seeders_max : ℕ) (argc argc_exp : ℕ)
    (arg0 : Option ℤ) : ℤ :=
  if argc ≠ argc_exp then ERR_ARG
  else match arg0 with
    | none => ERR_ARG
    | some index =>
      if index < 0 then ERR_ARG
      else if (seeders_max : ℤ) ≤ index then ERR_ARG
      else index

structure AmplState where
  seeders_max : ℕ
  ampls : ℤ → ℚ

def granular_ampl (s : AmplState) (index : ℤ) (v : ℚ) : AmplState :=
  { s with ampls := Function.update s.ampls index v }

/-! ## Per-sample resampling cursor (granular.c lines 632-636)

```c
grain->src_R += src_len;
while (grain->src_R >= out_len) { grain->src_R -= out_len; grain->src_I++; }
grain->env_R += env_len;
while (grain->env_R >= out_len) { grain->env_R -= out_len; grain->env_I++; }
```
with locals `src_len = grain->src_len - 1`, `env_len = x->env_n_frm - 1`,
`out_len = grain->out_len - 1`.  The loop guard carries `1 ≤ t`: for
`t ≤ 0` the C loop does not terminate, which never happens on the render
path (`out_len ≥ 2` there). -/

def cursorWhile (t I R : ℤ) : ℤ × ℤ :=
  if h : 1 ≤ t ∧ t ≤ R then cursorWhile t (I + 1) (R - t) else (I, R)
termination_by R.toNat
decreasing_by omega

/-- One advance of a cursor: add the step `st` to the remainder, then run the
subtract-and-carry loop with threshold `t`. -/
def cursorStep (st t I R : ℤ) : ℤ × ℤ := cursorWhile t I (R + st)

/-- The source cursor of a grain whose source length equals its output length
`L`, after `k` rendered samples.  Both cursor components start at `0`
(`granular_add_grain_fs`, lines 1547-1548); each sample advances by step
`src_len - 1 = L - 1` against threshold `out_len - 1 = L - 1`. -/
def srcCursorIter (L : ℤ) : ℕ → ℤ × ℤ
  | 0 => (0, 0)
  | k + 1 =>
    let c := srcCursorIter L k
    cursorStep (L - 1) (L - 1) c.1 c.2

/-- The envelope cursor of a grain with output length `L`, after `k` rendered
samples: step `env_len = ENV_N_SMP - 1 = 999`, threshold `out_len - 1 = L - 1`
(granular.c lines 616, 635-636, 1550-1551). -/
def envCursorIter (L : ℤ) : ℕ → ℤ × ℤ
  | 0 => (0, 0)
  | k + 1 =>
    let c := envCursorIter L k
    cursorStep (ENV_N_SMP - 1) (L - 1) c.1 c.2

/-- Guarded envelope-table lookup: the table `seeder->env_values` has
`ENV_N_SMP = 1000` entries, so indices `0 .. 999` are in bounds and anything
else returns `none`. -/
def envLookup (env : ℕ → ℚ) (i : ℤ) : Option ℚ :=
  if 0 ≤ i ∧ i < ENV_N_SMP then some (env i.toNat) else none

/-- The pair of envelope-table reads performed while rendering sample `k` of a
grain with output length `L` (granular.c line 628 reads
`env_values[grain->env_I]` and `env_values[grain->env_I + 1]`). -/
def envAccessPair (env : ℕ → ℚ) (L : ℤ) (k : ℕ) : Option ℚ × Option ℚ :=
  let c := envCursorIter L k
  (envLookup env c.1, envLookup env (c.1 + 1))

/-! ## C2: the main-stream grain scheduler (granular.c lines 551-565, 583)

```c
while (seeder->period_cntd[0] < sampleframes) {
  granular_add_grain_fs(x, seeder, 0, seeder->period_cntd[0]);
  period = (t_int32)(seeder->period_len * (1 + (seeder->period_rand * (2.0 * rand() / RAND_MAX - 1))));
  seeder->period_cntd[0] += period;
  seeder->src_begin += (t_int32)(period * seeder->speed * seeder->buff_msr / x->msamplerate);
  if (seeder->src_begin < 0) { seeder->src_begin = seeder->buff_n_frm - seeder->src_len; }
  if (seeder->src_begin + seeder->src_len > seeder->buff_n_frm) { seeder->src_begin = 0; } }
...
seeder->period_cntd[0] -= sampleframes;
```
specialized, as the claim does, at `period_rand = 0`, where the randomized
period is exactly `period_len = P` every iteration.  The countdown before a
block is never negative (it starts at `0` and every block ends with
`cntd + k·P - S ≥ 0`), so it is modelled as `ℕ`; the termination of the
`while` loop requires `P ≥ 1`, carried by the definition. -/

def wrapBegin (buff_n_frm src_len b : ℤ) : ℤ :=
  let b1 := if b < 0 then buff_n_frm - src_len else b
  if b1 + src_len > buff_n_frm then 0 else b1

/-- The spawning `while` loop of the main stream: from countdown `c` and
source begin `b`, returns the block-relative output offsets of the spawned
grains, the countdown at loop exit, and the final source begin. -/
def mainStream (P S : ℕ) (hP : 0 < P) (speed buff_msr msr : ℚ)
    (buff_n_frm src_len : ℤ) (c : ℕ) (b : ℤ) : List ℕ × ℕ × ℤ :=
  if h : c < S then
    let adv := ratTrunc ((P : ℚ) * speed * buff_msr / msr)
    let b' := wrapBegin buff_n_frm src_len (b + adv)
    let r := mainStream P S hP speed buff_msr msr buff_n_frm src_len (c + P) b'
    (c :: r.1, r.2)
  else ([], c, b)
termination_by S - c
decreasing_by omega

/-- The whole per-block schedule of the main stream, including the final
`period_cntd[0] -= sampleframes` (line 583): offsets, post-block countdown
(as the C signed value), final source begin. -/
def mainStreamBlock (P S : ℕ) (hP : 0 < P) (speed buff_msr msr : ℚ)
    (buff_n_frm src_len : ℤ) (c : ℕ) (b : ℤ) : List ℕ × ℤ × ℤ :=
  let r := mainStream P S hP speed buff_msr msr buff_n_frm src_len c b
  (r.1, (r.2.1 : ℤ) - (S : ℤ), r.2.2)

/-! ## C5: grain countdown and retirement (granular.c lines 611-653)

Per block, for one grain, the render loop is
```c
out = outs[0] + grain->out_begin;
n   = sampleframes - grain->out_begin;
while (n && grain->out_cntd) { ...render...; n--; grain->out_cntd--; }
grain->out_begin = 0;
if (grain->out_cntd != 0) { keep } else { x->grains_cnt--; list_remove_node(...); }
```
`renderBlock n c` is the `while` loop (sample budget `n`, countdown `c`),
`runBlocks` chains it over consecutive blocks: the output offset is reset to
`0` after the first block, and a retired grain is removed from the list, so
no later block processes it. -/

def renderBlock : ℕ → ℤ → ℕ × ℤ
  | 0, c => (0, c)
  | n + 1, c =>
    if c = 0 then (0, c)
    else
      let r := renderBlock n (c - 1)
      (r.1 + 1, r.2)

/-- Result of rendering one grain over a sequence of blocks: total samples
rendered, final countdown, whether the grain was retired, and the number of
render passes that processed it. -/
structure RunRes where
  rendered : ℕ
  cntd : ℤ
  retired : Bool
  passes : ℕ

def runBlocks : List ℕ → ℕ → ℤ → RunRes
  | [], _, c => ⟨0, c, false, 0⟩
  | S :: rest, b, c =>
    let r := renderBlock (S - b) c
    if r.2 = 0 then ⟨r.1, 0, true, 1⟩
    else
      let r2 := runBlocks rest 0 r.2
      ⟨r.1 + r2.rendered, r2.cntd, r2.retired, r2.passes + 1⟩

/-- The per-block sample budgets seen by a grain with initial output offset
`b`: `S₀ - b` in its first block, the full block size afterwards. -/
def availList : List ℕ → ℕ → List ℕ
  | [], _ => []
  | S :: rest, b => (S - b) :: rest

/-! ## The Active-Set Index (linked_list.h / linked_list.c)

The C structure is one array of `len + 2` `t_int16` cells: cells `0..len-1`
hold "next" links, cell `len` is `*first_used` and cell `len + 1` is
`*first_empty` (both pointers are set once in `list_new` and never moved).
A C node pointer (`t_int16*`) is modelled as the cell number it points to.
All loops are bounded by an explicit fuel; `len + 1` fuel always suffices
for a well-formed list, whose chains have at most `len` nodes. -/

structure TList where
  len : ℕ
  arr : ℕ → ℤ

/-- A single `array[i] = v` store. -/
def listSet (s : TList) (i : ℕ) (v : ℤ) : TList :=
  { s with arr := Function.update s.arr i v }

/-- `list_new` (linked_list.c lines 20-38): links `i ↦ i+1` for
`i < n - 1`, `array[n-1] = array[n] = LIST_END`, `array[n+1] = 0`.
Unallocated cells beyond `n + 1` are modelled as `LIST_END`; no
well-formed operation ever reads them. -/
def list_new (n : ℕ) : TList :=
  { len := n,
    arr := fun i =>
      if i = n + 1 then 0
      else if i + 2 ≤ n then (i : ℤ) + 1
      else LIST_END }

/-- `list_insert_first` (linked_list.h lines 76-89). -/
def list_insert_first (s : TList) : TList × ℤ :=
  if s.arr (s.len + 1) = LIST_END then (s, LIST_ERR_FULL)
  else
    let tmp := s.arr (s.len + 1)
    let s1 := listSet s (s.len + 1) (s.arr tmp.toNat)
    let s2 := listSet s1 tmp.toNat (s1.arr s1.len)
    let s3 := listSet s2 s2.len tmp
    (s3, tmp)

/-- `list_remove_node` (linked_list.h lines 136-149): unlink the node the
pointer `p` currently addresses and splice it onto the empty list. -/
def list_remove_node (s : TList) (p : ℕ) : TList × ℤ :=
  if s.arr s.len = LIST_END then (s, LIST_ERR_EMPTY)
  else
    let tmp := s.arr p
    let s1 := listSet s p (s.arr tmp.toNat)
    let s2 := listSet s1 tmp.toNat (s1.arr (s1.len + 1))
    let s3 := listSet s2 (s2.len + 1) tmp
    (s3, tmp)

/-- The pointer walk of `list_insert_last` (linked_list.c line 91):
`while (*node != LIST_END) { node = list->array + *node; }`. -/
def lastPtrAux (arr : ℕ → ℤ) : ℕ → ℕ → ℕ
  | 0, p => p
  | fuel + 1, p =>
    if arr p = LIST_END then p else lastPtrAux arr fuel (arr p).toNat

/-- `list_insert_last` (linked_list.c lines 82-98). -/
def list_insert_last (s : TList) : TList × ℤ :=
  if s.arr (s.len + 1) = LIST_END then (s, LIST_ERR_FULL)
  else
    let p := lastPtrAux s.arr (s.len + 1) s.len
    let s1 := listSet s p (s.arr (s.len + 1))
    let s2 := listSet s1 (s.len + 1) (s1.arr (s1.arr p).toNat)
    let s3 := listSet s2 (s2.arr p).toNat LIST_END
    (s3, s3.arr p)

/-- The pointer walk of `list_insert_nth` / `list_remove_nth`
(linked_list.c lines 114-116, 195-197):
`while ((*node != LIST_END) && (cnt > 0)) { node = array + *node; cnt--; }`
— the counter itself bounds the loop. -/
def nthPtr (arr : ℕ → ℤ) : ℕ → ℕ → ℕ
  | 0, p => p
  | cnt + 1, p =>
    if arr p = LIST_END then p else nthPtr arr cnt (arr p).toNat

/-- `list_insert_nth` (linked_list.c lines 106-124). -/
def list_insert_nth (s : TList) (nn : ℕ) : TList × ℤ :=
  if s.arr (s.len + 1) = LIST_END then (s, LIST_ERR_FULL)
  else
    let p := nthPtr s.arr nn s.len
    let tmp := s.arr (s.len + 1)
    let s1 := listSet s (s.len + 1) (s.arr tmp.toNat)
    let s2 := listSet s1 tmp.toNat (s1.arr p)
    let s3 := listSet s2 p tmp
    (s3, tmp)

/-- The pointer walk of `list_insert_index` / `list_remove_index`
(linked_list.c lines 135-136, 218-219):
`while ((*node != LIST_END) && (*node != index)) { node = array + *node; }`. -/
def findPtrAux (arr : ℕ → ℤ) (target : ℤ) : ℕ → ℕ → ℕ
  | 0, p => p
  | fuel + 1, p =>
    if arr p = LIST_END ∨ arr p = target then p
    else findPtrAux arr target fuel (arr p).toNat

/-- `list_insert_index` (linked_list.c lines 132-146). -/
def list_insert_index (s : TList) (index : ℕ) : TList × ℤ :=
  let p := findPtrAux s.arr (index : ℤ) (s.len + 1) (s.len + 1)
  if s.arr p = LIST_END then (s, LIST_NOT_FOUND)
  else
    let s1 := listSet s p (s.arr index)
    let s2 := listSet s1 index (s1.arr s1.len)
    let s3 := listSet s2 s2.len (index : ℤ)
    (s3, (index : ℤ))

/-- The two-pointer walk of `list_remove_last` (linked_list.c lines
171-173): advance `node` while `array[*node] != LIST_END`. -/
def lastPrevAux (arr : ℕ → ℤ) : ℕ → ℕ → ℕ
  | 0, p => p
  | fuel + 1, p =>
    if arr (arr p).toNat = LIST_END then p
    else lastPrevAux arr fuel (arr p).toNat

/-- `list_remove_last` (linked_list.c lines 163-179).  Note the C returns
`*node` after storing `LIST_END` there, so the returned value is always
`LIST_END`, not the removed index. -/
def list_remove_last (s : TList) : TList × ℤ :=
  if s.arr s.len = LIST_END then (s, LIST_ERR_EMPTY)
  else
    let p := lastPrevAux s.arr (s.len + 1) s.len
    let s1 := listSet s (s.arr p).toNat (s.arr (s.len + 1))
    let s2 := listSet s1 (s.len + 1) (s1.arr p)
    let s3 := listSet s2 p LIST_END
    (s3, s3.arr p)

/-- `list_remove_nth` (linked_list.c lines 187-206). -/
def list_remove_nth (s : TList) (nn : ℕ) : TList × ℤ :=
  if s.arr s.len = LIST_END then (s, LIST_ERR_EMPTY)
  else
    let p := nthPtr s.arr nn s.len
    if s.arr p = LIST_END then (s, LIST_ERR_ARG)
    else
      let tmp := s.arr p
      let s1 := listSet s p (s.arr tmp.toNat)
      let s2 := listSet s1 tmp.toNat (s1.arr (s1.len + 1))
      let s3 := listSet s2 (s2.len + 1) tmp
      (s3, tmp)

/-- `list_remove_index` (linked_list.c lines 215-229). -/
def list_remove_index (s : TList) (index : ℕ) : TList × ℤ :=
  let p := findPtrAux s.arr (index : ℤ) (s.len + 1) s.len
  if s.arr p = LIST_END then (s, LIST_NOT_FOUND)
  else
    let s1 := listSet s p (s.arr index)
    let s2 := listSet s1 index (s1.arr (s1.len + 1))
    let s3 := listSet s2 (s2.len + 1) (index : ℤ)
    (s3, (index : ℤ))

/-- The iteration pattern of `list_post` / the render loops:
`while (*ptr != LIST_END) { visit *ptr; ptr = list->array + *ptr; }`,
bounded by fuel. -/
def chaseAux (arr : ℕ → ℤ) : ℕ → ℤ → List ℤ
  | 0, _ => []
  | fuel + 1, cur =>
    if cur = LIST_END then [] else cur :: chaseAux arr fuel (arr cur.toNat)

/-- The used list as iterated from its head. -/
def usedList (s : TList) : List ℤ := chaseAux s.arr s.len (s.arr s.len)

/-- `k` successive `list_insert_first` calls, collecting the returns in
call order. -/
def insertK : ℕ → TList → TList × List ℤ
  | 0, s => (s, [])
  | k + 1, s =>
    let r := insertK k s
    let r2 := list_insert_first r.1
    (r2.1, r.2 ++ [r2.2])

/-- The memory of a fresh capacity-`N` list after `k ≤ N` `insert_first`
calls: cells `i < k` hold `i - 1` (cell `0` holds `LIST_END = -1`), cells
`k ≤ i ≤ N - 1` are still as built, `first_used = k - 1` (or `END`),
`first_empty = k` (or `END`). -/
def arrK (N k : ℕ) : ℕ → ℤ :=
  fun i =>
    if i = N then (if k = 0 then LIST_END else (k : ℤ) - 1)
    else if i = N + 1 then (if k < N then (k : ℤ) else LIST_END)
    else if i < k then (i : ℤ) - 1
    else if i + 2 ≤ N then (i : ℤ) + 1
    else LIST_END

/-! ### Chains: the abstract contents of the two intrusive lists

`chainW arr p l` says: starting from cell `p`, following the links of `arr`
visits exactly the cells listed in `l` and then reaches `LIST_END`.
`chainSeg arr p l q` says: following the links from cell `p` along the
cells of `l` leaves the walking pointer at cell `q` (the C `node` pointer
after `l.length` steps). -/

def chainW (arr : ℕ → ℤ) : ℕ → List ℕ → Prop
  | p, [] => arr p = LIST_END
  | p, i :: t => arr p = (i : ℤ) ∧ chainW arr i t

instance chainW.dec (arr : ℕ → ℤ) : ∀ (p : ℕ) (l : List ℕ), Decidable (chainW arr p l)
  | p, [] => inferInstanceAs (Decidable (arr p = LIST_END))
  | p, i :: t =>
    haveI := chainW.dec arr i t
    inferInstanceAs (Decidable (arr p = (i : ℤ) ∧ chainW arr i t))

def chainSeg (arr : ℕ → ℤ) : ℕ → List ℕ → ℕ → Prop
  | p, [], q => q = p
  | p, i :: t, q => arr p = (i : ℤ) ∧ chainSeg arr i t q

/-- The representation invariant of the Active-Set Index: the used chain
(from cell `len`) holds `us`, the empty chain (from cell `len + 1`) holds
`es`, no index appears twice and all indices are below the capacity. -/
def listRepr (s : TList) (us es : List ℕ) : Prop :=
  chainW s.arr s.len us ∧ chainW s.arr (s.len + 1) es ∧
  (us ++ es).Nodup ∧ ∀ i ∈ us ++ es, i < s.len

instance (s : TList) (us es : List ℕ) : Decidable (listRepr s us es) := by
  unfold listRepr
  infer_instance

/-- The operations of the Active-Set Index named by the claim. -/
inductive ListOp where
  | insertFirst
  | insertLast
  | insertNth (n : ℕ)
  | insertIndex (i : ℕ)
  | removeNode (p : ℕ)
  | removeLast
  | removeNth (n : ℕ)
  | removeIndex (i : ℕ)

def applyOp : ListOp → TList → TList × ℤ
  | .insertFirst, s => list_insert_first s
  | .insertLast, s => list_insert_last s
  | .insertNth n, s => list_insert_nth s n
  | .insertIndex i, s => list_insert_index s i
  | .removeNode p, s => list_remove_node s p
  | .removeLast, s => list_remove_last s
  | .removeNth n, s => list_remove_nth s n
  | .removeIndex i, s => list_remove_index s i

/-- `list_remove_node` receives a raw node pointer; it is meaningful only
for a pointer currently addressing a node of the used list (as produced by
the iteration in `granular_perform64`).  All other operations are total. -/
def opValid : ListOp → TList → List ℕ → Prop
  | .removeNode p, s, us =>
    ∃ l1 t l2, us = l1 ++ t :: l2 ∧ chainSeg s.arr s.len l1 p
  | _, _, _ => True

/-! ## C9: grain-pool exhaustion during a spawn (granular.c lines 1521-1554
and the scheduler body, lines 551-565) -/

/-- The grain record `t_grain` (granular.c lines 110-130). -/
structure Grain where
  index : ℤ
  is_new : Bool
  ampl : ℚ
  src_begin : ℤ
  src_len : ℤ
  out_begin : ℤ
  out_len : ℤ
  out_cntd : ℤ
  src_I : ℤ
  src_R : ℤ
  env_I : ℤ
  env_R : ℤ

/-- The seeder fields read and written by `granular_add_grain_fs` and the
main-stream scheduler loop (granular.c lines 54-106). -/
structure Seeder where
  index : ℤ
  ampl : ℚ
  src_begin : ℤ
  src_len : ℤ
  out_len : ℤ
  period_len : ℤ
  period_rand : ℚ
  speed : ℚ
  buff_n_frm : ℤ
  buff_msr : ℚ
  period_cntd0 : ℤ

/-- The grain-pool part of the engine state `t_granular`
(granular.c lines 160-163). -/
structure GrainEngine where
  grains_cnt : ℕ
  grains_max : ℕ
  grains_list : TList
  grains_arr : ℕ → Grain

/-- `granular_add_grain_fs` (granular.c lines 1521-1554): if the pool is at
capacity, log and return `NULL` with nothing touched; otherwise bump the
count, acquire a slot from the index list and fill the grain record. -/
def granular_add_grain_fs (x : GrainEngine) (seeder : Seeder)
    (src_offset out_offset : ℤ) : GrainEngine × Option Grain :=
  if x.grains_cnt = x.grains_max then (x, none)
  else
    let r := list_insert_first x.grains_list
    let b0 := seeder.src_begin + src_offset
    let b1 := if b0 < 0 then 0 else b0
    let b2 := if b1 + seeder.src_len > seeder.buff_n_frm then
      seeder.buff_n_frm - seeder.src_len else b1
    let g : Grain :=
      { index := seeder.index, is_new := true, ampl := seeder.ampl,
        src_begin := b2, src_len := seeder.src_len,
        out_begin := out_offset, out_len := seeder.out_len,
        out_cntd := seeder.out_len,
        src_I := 0, src_R := 0, env_I := 0, env_R := 0 }
    ({ x with
        grains_cnt := x.grains_cnt + 1,
        grains_list := r.1,
        grains_arr := Function.update x.grains_arr r.2.toNat g }, some g)

/-- One iteration of the main-stream spawning loop (granular.c lines
551-565): attempt the spawn (return value ignored), add the randomized
period to the countdown, advance the source begin and wrap it.  `u` is the
draw `2.0 * rand() / RAND_MAX - 1`. -/
def schedStepMain (msamplerate : ℚ) (x : GrainEngine) (seeder : Seeder)
    (u : ℚ) : GrainEngine × Seeder :=
  let x' := (granular_add_grain_fs x seeder 0 seeder.period_cntd0).1
  let period := ratTrunc ((seeder.period_len : ℚ) *
    (1 + seeder.period_rand * u))
  let cntd' := seeder.period_cntd0 + period
  let b2 := wrapBegin seeder.buff_n_frm seeder.src_len (seeder.src_begin +
    ratTrunc ((period : ℚ) * seeder.speed * seeder.buff_msr / msamplerate))
  (x', { seeder with period_cntd0 := cntd', src_begin := b2 })

/-! ### Characterization of the subtract-and-carry loop -/

lemma cursorWhile_char (t : ℤ) (ht : 1 ≤ t) :
    ∀ (n : ℕ) (I R : ℤ), 0 ≤ R → R.toNat ≤ n →
      cursorWhile t I R = (I + R / t, R % t) := by
  intro n
  induction n with
  | zero =>
    intro I R hR hn
    have hR0 : R = 0 := by omega
    subst hR0
    rw [cursorWhile]
    simp [ht]
    omega
  | succ n ih =>
    intro I R hR hn
    rw [cursorWhile]
    by_cases h : t ≤ R
    · rw [dif_pos ⟨ht, h⟩]
      have h1 : (R - t).toNat ≤ n := by omega
      rw [ih (I + 1) (R - t) (by omega) h1]
      have ht0 : t ≠ 0 := by omega
      have e1 : R / t = (R - t) / t + 1 := by
        have h2 := Int.add_mul_ediv_right (R - t) 1 ht0
        rw [show R - t + 1 * t = R by ring] at h2
        exact h2
      have e2 : (R - t) % t = R % t := by
        have h3 := Int.emod_emod_of_dvd R (dvd_refl t)
        rw [Int.sub_emod, Int.emod_self, sub_zero, h3]
      rw [Prod.mk.injEq]
      exact ⟨by rw [e1]; ring, e2⟩
    · rw [dif_neg (by tauto)]
      have h1 : R / t = 0 := Int.ediv_eq_zero_of_lt hR (by omega)
      have h2 : R % t = R := Int.emod_eq_of_lt hR (by omega)
      rw [h1, h2]
      simp

lemma cursorWhile_eq (t I R : ℤ) (ht : 1 ≤ t) (hR : 0 ≤ R) :
    cursorWhile t I R = (I + R / t, R % t) :=
  cursorWhile_char t ht R.toNat I R hR le_rfl

/-- Closed form of the envelope cursor after `k` rendered samples: it is the
Euclidean quotient/remainder of `999 * k` by `out_len - 1 = L - 1`. -/
lemma envCursorIter_char (L : ℤ) (hL : 2 ≤ L) (k : ℕ) :
    envCursorIter L k = (999 * k / (L - 1), 999 * k % (L - 1)) := by
  have hne : L - 1 ≠ 0 := by omega
  induction k with
  | zero => simp [envCursorIter]
  | succ k ih =>
    have hR : (0 : ℤ) ≤ 999 * k % (L - 1) :=
      Int.emod_nonneg _ hne
    simp only [envCursorIter, ih, cursorStep]
    rw [show (ENV_N_SMP - 1 : ℤ) = 999 by norm_num [ENV_N_SMP]]
    rw [cursorWhile_eq (L - 1) _ _ (by omega) (by omega)]
    have hsplit : 999 * ((k : ℤ) + 1) =
        (999 * k % (L - 1) + 999) + (999 * k / (L - 1)) * (L - 1) := by
      have := Int.ediv_add_emod (999 * (k : ℤ)) (L - 1)
      ring_nf
      ring_nf at this
      omega
    rw [Prod.mk.injEq]
    constructor
    · push_cast
      rw [hsplit, Int.add_mul_ediv_right _ _ hne]
      ring
    · push_cast
      rw [hsplit, Int.add_mul_emod_self]

/-! ## C1: the output fold -/

/-- C1 (counterexample): the claim states `fold v = 2 - v` for every `v > 1`
and that inputs beyond `[-2, 2]` are not brought back into the unit range.
At `v = 4` both sequential reflections fire: `fold 4 = 0 ≠ 2 - 4`, and the
result lies inside `[-1, 1]`. -/
theorem fold_claim_counterexample :
    fold 4 = 0 ∧ fold 4 ≠ 2 - 4 ∧ -1 ≤ fold 4 ∧ fold 4 ≤ 1 := by
  norm_num [fold]

/-- C1 (amended): the fold leaves `v` unchanged on `[-1, 1]`, maps
`1 < v ≤ 3` to `2 - v` and `v < -1` to `-2 - v`; but because the two `if`s
are sequential, `v > 3` is reflected twice, giving `v - 4`.  The four
concrete examples of the claim hold. -/
theorem fold_amended (v : ℚ) :
    (-1 ≤ v → v ≤ 1 → fold v = v) ∧
    (1 < v → v ≤ 3 → fold v = 2 - v) ∧
    (3 < v → fold v = v - 4) ∧
    (v < -1 → fold v = -2 - v) ∧
    fold (1/2) = 1/2 ∧ fold (6/5) = 4/5 ∧
    fold (-(13/10)) = -(7/10) ∧ fold 1 = 1 := by
  refine ⟨?_, ?_, ?_, ?_, by norm_num [fold], by norm_num [fold],
    by norm_num [fold], by norm_num [fold]⟩
  · intro h1 h2
    simp only [fold]
    split_ifs <;> linarith
  · intro h1 h2
    simp only [fold]
    split_ifs <;> linarith
  · intro h1
    simp only [fold]
    split_ifs <;> linarith
  · intro h1
    simp only [fold]
    split_ifs <;> linarith

theorem fold_amended_witness : fold 2 = 2 - 2 :=
  (fold_amended 2).2.1 (by norm_num) (by norm_num)

/-! ## C3: the seeder begin clamp -/

/-- C3 (counterexample): the claim states the stored begin is never negative.
With `bufferFrames = 100` and `sourceLength = 200` (a window longer than the
buffer), `beginFraction = 0` yields a stored begin of `-100`. -/
theorem begin_claim_counterexample :
    granular_begin 0 100 200 = -100 ∧ granular_begin 0 100 200 < 0 := by
  norm_num [granular_begin, ratTrunc]

/-- C3 (amended): whenever the (zero-clamped) tentative begin plus
`sourceLength` exceeds `bufferFrames`, the begin is clamped to
`bufferFrames - sourceLength`; and provided `sourceLength ≤ bufferFrames`,
the stored begin is never negative and the window stays inside the buffer. -/
theorem granular_begin_spec (frac : ℚ) (buff_n_frm src_len : ℤ)
    (h : src_len ≤ buff_n_frm) :
    (ratTrunc (frac * buff_n_frm) + src_len > buff_n_frm →
      granular_begin frac buff_n_frm src_len = buff_n_frm - src_len) ∧
    0 ≤ granular_begin frac buff_n_frm src_len ∧
    granular_begin frac buff_n_frm src_len + src_len ≤ buff_n_frm := by
  refine ⟨fun hgt => ?_, ?_, ?_⟩
  all_goals simp only [granular_begin]
  all_goals split_ifs <;> omega

theorem granular_begin_spec_witness :
    (30 : ℤ) ≤ 100 ∧
    ((ratTrunc (1 * (100 : ℤ)) + 30 > 100 →
        granular_begin 1 100 30 = 100 - 30) ∧
      0 ≤ granular_begin 1 100 30 ∧
      granular_begin 1 100 30 + 30 ≤ 100) :=
  ⟨by decide, granular_begin_spec 1 100 30 (by decide)⟩

/-! ## C4: the per-field setters perform no argument validation -/

/-- C4 (code bug): `granular_check_args` would reject the out-of-range index
`10` on an engine with `seeders_max = 10`, but `granular_ampl` never calls
it: the message `ampl 10 0.5` writes `seeders_arr[10].ampl` — an
out-of-bounds write — and thus mutates state instead of being a no-op. -/
theorem ampl_out_of_range_mutates :
    granular_check_args 10 2 2 (some 10) = ERR_ARG ∧
    (granular_ampl ⟨10, fun _ => 1⟩ 10 (1/2)).ampls 10 = 1/2 ∧
    granular_ampl ⟨10, fun _ => 1⟩ 10 (1/2) ≠ (⟨10, fun _ => 1⟩ : AmplState) := by
  refine ⟨by decide, by simp [granular_ampl], ?_⟩
  intro hcontra
  have h10 := congrArg (fun st => st.ampls 10) hcontra
  simp [granular_ampl] at h10

/-! ## C8: pitch-neutral resampling cursor -/

/-- C8: for a grain with `sourceLength = outputLength = L ≥ 2`, after each of
the first `L` rendered samples the source cursor is exactly `(k, 0)`: the
integer index has advanced by exactly one per sample and the fractional
remainder is `0` before and after every advance. -/
theorem src_cursor_unit_step (L : ℤ) (hL : 2 ≤ L) :
    ∀ k : ℕ, (k : ℤ) ≤ L → srcCursorIter L k = ((k : ℤ), 0) := by
  intro k
  induction k with
  | zero => intro _; simp [srcCursorIter]
  | succ k ih =>
    intro hk
    have h1 : (k : ℤ) ≤ L := by push_cast at hk; omega
    simp only [srcCursorIter, ih h1, cursorStep]
    rw [cursorWhile_eq (L - 1) _ _ (by omega) (by omega)]
    rw [show (0 : ℤ) + (L - 1) = L - 1 by ring]
    rw [Int.ediv_self (by omega), Int.emod_self]
    rw [Prod.mk.injEq]
    constructor
    · push_cast
      ring
    · rfl

theorem src_cursor_unit_step_witness : srcCursorIter 5 3 = (3, 0) := by
  have h := src_cursor_unit_step 5 (by norm_num) 3 (by norm_num)
  exact_mod_cast h

/-! ## C10: the envelope neighbor read on the last sample -/

/-- C10 (code bug): while rendering the last sample (`k = L - 1`) of any
grain with output length `L ≥ 2`, the envelope cursor index equals `999`, so
the neighbor read `env_values[env_I + 1]` accesses index `1000` — one past
the end of the `ENV_N_SMP = 1000`-entry table: the guarded lookup reaches its
out-of-bounds branch. -/
theorem env_neighbor_out_of_bounds (L : ℤ) (hL : 2 ≤ L) (env : ℕ → ℚ) :
    (envCursorIter L (L - 1).toNat).1 = 999 ∧
    envAccessPair env L (L - 1).toNat = (some (env 999), none) := by
  have hk : ((L - 1).toNat : ℤ) = L - 1 := Int.toNat_of_nonneg (by omega)
  have hchar := envCursorIter_char L hL (L - 1).toNat
  rw [hk] at hchar
  have hne : L - 1 ≠ 0 := by omega
  have hdiv : 999 * (L - 1) / (L - 1) = 999 := Int.mul_ediv_cancel _ hne
  refine ⟨by rw [hchar]; exact hdiv, ?_⟩
  simp only [envAccessPair, envLookup, hchar, hdiv]
  norm_num [ENV_N_SMP]
  rfl

theorem env_neighbor_out_of_bounds_witness :
    (envCursorIter 2 (2 - 1 : ℤ).toNat).1 = 999 ∧
    envAccessPair (fun _ => (0 : ℚ)) 2 (2 - 1 : ℤ).toNat =
      (some 0, none) :=
  env_neighbor_out_of_bounds 2 (by norm_num) (fun _ => (0 : ℚ))

lemma mainStream_char (P S : ℕ) (hP : 0 < P) (speed buff_msr msr : ℚ)
    (buff_n_frm src_len : ℤ) :
    ∀ (m c : ℕ) (b : ℤ), S - c ≤ m →
      (mainStream P S hP speed buff_msr msr buff_n_frm src_len c b).1 =
        (List.range ((S - c + (P - 1)) / P)).map (fun i => c + i * P) ∧
      (mainStream P S hP speed buff_msr msr buff_n_frm src_len c b).2.1 =
        c + ((S - c + (P - 1)) / P) * P := by
  intro m
  induction m with
  | zero =>
    intro c b hm
    rw [mainStream, dif_neg (by omega)]
    have hk : (S - c + (P - 1)) / P = 0 := by
      rw [show S - c = 0 by omega]
      exact Nat.div_eq_of_lt (by omega)
    simp [hk]
  | succ m ih =>
    intro c b hm
    by_cases h : c < S
    · rw [mainStream, dif_pos h]
      obtain ⟨ih1, ih2⟩ := ih (c + P) _ (by omega)
      have hA : (S - c + (P - 1)) / P = (S - c - 1) / P + 1 := by
        rw [show S - c + (P - 1) = (S - c - 1) + P by omega,
          Nat.add_div_right _ hP]
      have hB : (S - (c + P) + (P - 1)) / P = (S - c - 1) / P := by
        rcases le_or_lt (S - c) P with hdP | hdP
        · rw [show S - (c + P) + (P - 1) = P - 1 by omega,
            Nat.div_eq_of_lt (by omega), Nat.div_eq_of_lt (by omega)]
        · rw [show S - (c + P) + (P - 1) = S - c - 1 by omega]
      have hk : (S - c + (P - 1)) / P = (S - (c + P) + (P - 1)) / P + 1 := by
        rw [hA, hB]
      constructor
      · show c :: (mainStream P S hP speed buff_msr msr buff_n_frm src_len
            (c + P) _).1 = _
        rw [ih1, hk, List.range_succ_eq_map, List.map_cons, List.map_map]
        congr 1
        · omega
        · have hfun : ((fun i => c + i * P) ∘ Nat.succ) =
              fun i : ℕ => c + P + i * P := by
            funext i
            simp only [Function.comp, Nat.succ_eq_add_one]
            ring
          rw [hfun]
      · show (mainStream P S hP speed buff_msr msr buff_n_frm src_len
            (c + P) _).2.1 = _
        rw [ih2, hk]
        ring
    · rw [mainStream, dif_neg h]
      have hk : (S - c + (P - 1)) / P = 0 := by
        rw [show S - c = 0 by omega]
        exact Nat.div_eq_of_lt (by omega)
      simp [hk]

/-- C2: with `periodRand = 0`, period length `P ≥ 1`, block size `S` and
countdown `c` before the block, the scheduler spawns exactly
`k = ⌈(S - c)/P⌉` (clipped to `≥ 0`, here `(S ∸ c + (P-1))/P` over `ℕ`)
main-stream grains, at block-relative offsets `c, c+P, …, c+(k-1)P`, and the
post-block countdown is `c + k·P - S`.  The last two conjuncts pin `k` as
the clipped ceiling: `k` is the least number of periods carrying the
countdown to at least `S`. -/
theorem scheduler_determinism (P S : ℕ) (hP : 0 < P)
    (speed buff_msr msr : ℚ) (buff_n_frm src_len : ℤ) (c : ℕ) (b : ℤ) :
    (mainStreamBlock P S hP speed buff_msr msr buff_n_frm src_len c b).1 =
      (List.range ((S - c + (P - 1)) / P)).map (fun i => c + i * P) ∧
    (mainStreamBlock P S hP speed buff_msr msr buff_n_frm src_len c b).2.1 =
      (c : ℤ) + ((S - c + (P - 1)) / P : ℕ) * (P : ℤ) - (S : ℤ) ∧
    S ≤ c + ((S - c + (P - 1)) / P) * P ∧
    (0 < (S - c + (P - 1)) / P →
      c + ((S - c + (P - 1)) / P - 1) * P < S) := by
  obtain ⟨h1, h2⟩ := mainStream_char P S hP speed buff_msr msr buff_n_frm
    src_len (S - c) c b le_rfl
  have hdm : (S - c + (P - 1)) / P * P + (S - c + (P - 1)) % P =
      S - c + (P - 1) := by
    rw [mul_comm]
    exact Nat.div_add_mod _ P
  have hlt : (S - c + (P - 1)) % P < P := Nat.mod_lt _ hP
  refine ⟨h1, ?_, ?_, ?_⟩
  · simp only [mainStreamBlock, h2]
    push_cast
    ring
  · omega
  · intro hq0
    have hPq : P ≤ (S - c + (P - 1)) / P * P :=
      Nat.le_mul_of_pos_left P hq0
    have hsub : ((S - c + (P - 1)) / P - 1) * P =
        (S - c + (P - 1)) / P * P - P := Nat.sub_one_mul _ _
    omega

theorem scheduler_determinism_witness :
    0 < 3 ∧
    ((mainStreamBlock 3 8 (by norm_num) 1 1 1 100 10 2 0).1 =
        (List.range ((8 - 2 + (3 - 1)) / 3)).map (fun i => 2 + i * 3) ∧
      (mainStreamBlock 3 8 (by norm_num) 1 1 1 100 10 2 0).2.1 =
        (2 : ℤ) + (((8 - 2 + (3 - 1)) / 3 : ℕ) : ℤ) * (3 : ℤ) - (8 : ℤ) ∧
      8 ≤ 2 + ((8 - 2 + (3 - 1)) / 3) * 3 ∧
      (0 < (8 - 2 + (3 - 1)) / 3 → 2 + ((8 - 2 + (3 - 1)) / 3 - 1) * 3 < 8)) :=
  ⟨by norm_num,
    scheduler_determinism 3 8 (by norm_num) 1 1 1 100 10 2 0⟩

lemma availList_zero (l : List ℕ) : availList l 0 = l := by
  cases l <;> simp [availList]

lemma renderBlock_char (n : ℕ) :
    ∀ c : ℤ, 0 ≤ c →
      renderBlock n c = (min n c.toNat, c - min n c.toNat) := by
  induction n with
  | zero =>
    intro c hc
    simp [renderBlock]
  | succ n ih =>
    intro c hc
    rw [renderBlock]
    by_cases h0 : c = 0
    · subst h0
      simp
    · rw [if_neg h0, ih (c - 1) (by omega)]
      rw [Prod.mk.injEq]
      constructor
      · omega
      · omega

lemma runBlocks_char (blocks : List ℕ) :
    ∀ (b c : ℕ), 1 ≤ c →
      (runBlocks blocks b (c : ℤ)).rendered =
        min c (availList blocks b).sum ∧
      (runBlocks blocks b (c : ℤ)).cntd =
        (c : ℤ) - min c (availList blocks b).sum ∧
      ((runBlocks blocks b (c : ℤ)).retired = true ↔
        c ≤ (availList blocks b).sum) ∧
      (c ≤ (availList blocks b).sum →
        c ≤ ((availList blocks b).take
              (runBlocks blocks b (c : ℤ)).passes).sum ∧
        ((availList blocks b).take
              ((runBlocks blocks b (c : ℤ)).passes - 1)).sum < c) ∧
      ((availList blocks b).sum < c →
        (runBlocks blocks b (c : ℤ)).passes = blocks.length) := by
  induction blocks with
  | nil =>
    intro b c hc
    simp only [runBlocks, availList, List.sum_nil, List.take_nil]
    refine ⟨by omega, by omega, by simp; omega, by omega, fun _ => rfl⟩
  | cons S rest ih =>
    intro b c hc
    have hrb := renderBlock_char (S - b) (c : ℤ) (by omega)
    have hct : ((c : ℤ)).toNat = c := Int.toNat_natCast c
    rw [hct] at hrb
    simp only [runBlocks, availList, hrb, List.sum_cons]
    by_cases hle : c ≤ S - b
    · have hmin : min (S - b) c = c := by omega
      rw [hmin, if_pos (by push_cast; ring)]
      simp only []
      refine ⟨?_, ?_, ?_, fun _ => ?_, ?_⟩
      · omega
      · omega
      · constructor
        · intro _
          omega
        · intro _
          trivial
      · constructor
        · simp
          omega
        · simp
          omega
      · intro hcon
        omega
    · have hmin : min (S - b) c = S - b := by omega
      have hne : (c : ℤ) - (min (S - b) c : ℕ) ≠ 0 := by
        rw [hmin]
        push_cast
        omega
      rw [if_neg hne]
      have hcast : ((c : ℤ) - (min (S - b) c : ℕ)) = ((c - (S - b) : ℕ) : ℤ) := by
        rw [hmin]
        push_cast
        omega
      rw [hcast]
      simp only []
      obtain ⟨ih1, ih2, ih3, ih4, ih5⟩ := ih 0 (c - (S - b)) (by omega)
      rw [availList_zero] at ih1 ih2 ih3 ih4 ih5
      refine ⟨?_, ?_, ?_, ?_, ?_⟩
      · rw [ih1]
        omega
      · rw [ih2]
        omega
      · rw [ih3]
        omega
      · intro hsum
        obtain ⟨h4a, h4b⟩ := ih4 (by omega)
        have hp1 : 1 ≤ (runBlocks rest 0 ((c - (S - b) : ℕ) : ℤ)).passes := by
          rcases Nat.eq_zero_or_pos
              (runBlocks rest 0 ((c - (S - b) : ℕ) : ℤ)).passes with h0 | h0
          · rw [h0] at h4a
            simp at h4a
            omega
          · exact h0
        obtain ⟨p', hp'⟩ : ∃ p',
            (runBlocks rest 0 ((c - (S - b) : ℕ) : ℤ)).passes = p' + 1 :=
          ⟨(runBlocks rest 0 ((c - (S - b) : ℕ) : ℤ)).passes - 1, by omega⟩
        rw [hp'] at h4a h4b
        rw [hp']
        constructor
        · rw [List.take_succ_cons, List.sum_cons]
          omega
        · rw [Nat.add_sub_cancel, List.take_succ_cons, List.sum_cons]
          rw [Nat.add_sub_cancel] at h4b
          omega
      · intro hsum
        rw [ih5 (by omega), List.length_cons]

/-- C5: a grain spawned with countdown `L ≥ 1` and output offset `b < S₀`,
rendered over blocks of sizes `S₀, S₁, …` whose budgets cover `L`: exactly
`L` samples are rendered in total, the final countdown is `0`, the grain is
retired, and it is retired in precisely the pass in which the cumulative
budget first reaches `L` (the `L`-th sample's pass); moreover the countdown
is never negative after any prefix of blocks. -/
theorem grain_countdown_retire (L : ℕ) (hL : 1 ≤ L) (S0 : ℕ)
    (rest : List ℕ) (b : ℕ) (hb : b < S0)
    (hcap : L ≤ ((S0 - b) :: rest).sum) :
    (runBlocks (S0 :: rest) b (L : ℤ)).rendered = L ∧
    (runBlocks (S0 :: rest) b (L : ℤ)).cntd = 0 ∧
    (runBlocks (S0 :: rest) b (L : ℤ)).retired = true ∧
    L ≤ (((S0 - b) :: rest).take
          (runBlocks (S0 :: rest) b (L : ℤ)).passes).sum ∧
    (((S0 - b) :: rest).take
          ((runBlocks (S0 :: rest) b (L : ℤ)).passes - 1)).sum < L ∧
    ∀ m : ℕ, 0 ≤ (runBlocks ((S0 :: rest).take m) b (L : ℤ)).cntd := by
  obtain ⟨h1, h2, h3, h4, h5⟩ := runBlocks_char (S0 :: rest) b L hL
  have hav : availList (S0 :: rest) b = (S0 - b) :: rest := rfl
  rw [hav] at h1 h2 h3 h4 h5
  have hmin : min L (((S0 - b) :: rest).sum) = L := min_eq_left hcap
  rw [hmin] at h1 h2
  obtain ⟨h4a, h4b⟩ := h4 hcap
  refine ⟨h1, by rw [h2]; omega, h3.mpr hcap, h4a, h4b, ?_⟩
  intro m
  cases m with
  | zero =>
    simp [runBlocks]
  | succ m =>
    rw [List.take_succ_cons]
    obtain ⟨g1, g2, g3, g4, g5⟩ :=
      runBlocks_char (S0 :: List.take m rest) b L hL
    rw [g2]
    have hm := Nat.min_le_left L ((availList (S0 :: List.take m rest) b).sum)
    omega

lemma list_new_eq_arrK (N : ℕ) (hN : 1 ≤ N) :
    list_new N = ⟨N, arrK N 0⟩ := by
  have harr : (list_new N).arr = arrK N 0 := by
    funext i
    simp only [list_new, arrK, LIST_END]
    split_ifs <;> omega
  exact congrArg (TList.mk N) harr

lemma insertK_state (N : ℕ) (hN : 1 ≤ N) :
    ∀ k, k ≤ N →
      insertK k (list_new N) =
        (⟨N, arrK N k⟩, (List.range k).map Int.ofNat) := by
  intro k
  induction k with
  | zero =>
    intro _
    simp only [insertK, List.range_zero, List.map_nil]
    rw [list_new_eq_arrK N hN]
  | succ k ih =>
    intro hk
    have hkN : k < N := by omega
    rw [insertK, ih (by omega)]
    simp only []
    have hfe : arrK N k (N + 1) = (k : ℤ) := by
      simp only [arrK, LIST_END]
      split_ifs <;> first | contradiction | omega
    have hins : list_insert_first ⟨N, arrK N k⟩ = (⟨N, arrK N (k + 1)⟩, (k : ℤ)) := by
      simp only [list_insert_first, hfe]
      rw [if_neg (by simp only [LIST_END]; omega)]
      simp only [listSet]
      have harr : Function.update (Function.update (Function.update
          (arrK N k) (N + 1) ((arrK N k) ((k : ℤ)).toNat))
          ((k : ℤ)).toNat ((Function.update (arrK N k) (N + 1)
            ((arrK N k) ((k : ℤ)).toNat)) N)) N (k : ℤ) = arrK N (k + 1) := by
        funext i
        simp only [Function.update_apply, arrK, Int.toNat_natCast, LIST_END]
        split_ifs <;> first | contradiction | omega
      rw [Prod.mk.injEq]
      exact ⟨congrArg (TList.mk N) harr, rfl⟩
    rw [hins]
    simp only []
    rw [List.range_succ, List.map_append, List.map_cons, List.map_nil]
    rfl

lemma chase_arrK (N : ℕ) :
    ∀ k fuel, k ≤ N → k ≤ fuel →
      chaseAux (arrK N N) fuel ((k : ℤ) - 1) =
        ((List.range k).reverse).map Int.ofNat := by
  intro k
  induction k with
  | zero =>
    intro fuel _ _
    cases fuel <;> simp [chaseAux, LIST_END]
  | succ k ih =>
    intro fuel hk hfuel
    obtain ⟨f, rfl⟩ : ∃ f, fuel = f + 1 := ⟨fuel - 1, by omega⟩
    have hcur : ((k + 1 : ℕ) : ℤ) - 1 = (k : ℤ) := by push_cast; ring
    rw [hcur, chaseAux]
    rw [if_neg (by simp only [LIST_END]; omega)]
    have harr : arrK N N ((k : ℤ)).toNat = (k : ℤ) - 1 := by
      simp only [Int.toNat_natCast, arrK, LIST_END]
      split_ifs <;> first | contradiction | omega
    rw [harr, ih f (by omega) (by omega)]
    rw [List.range_succ, List.reverse_append, List.map_append]
    simp

/-- C6: for a freshly constructed Active-Set Index of capacity `N ≥ 1`, the
first `N` `list_insert_first` calls return `0, 1, …, N-1` in that order, the
`(N+1)`-th call returns `LIST_ERR_FULL`, and iterating the used list from
its head then yields `N-1, N-2, …, 1, 0`. -/
theorem active_set_acquire_front (N : ℕ) (hN : 1 ≤ N) :
    (insertK N (list_new N)).2 = (List.range N).map Int.ofNat ∧
    (list_insert_first (insertK N (list_new N)).1).2 = LIST_ERR_FULL ∧
    usedList (insertK N (list_new N)).1 =
      ((List.range N).reverse).map Int.ofNat := by
  have hstate := insertK_state N hN N le_rfl
  refine ⟨by rw [hstate], ?_, ?_⟩
  · rw [hstate]
    simp only []
    have hfe : arrK N N (N + 1) = LIST_END := by
      simp only [arrK, LIST_END]
      split_ifs <;> first | contradiction | omega
    simp [list_insert_first, hfe]
  · rw [hstate]
    simp only [usedList]
    have hfu : arrK N N N = (N : ℤ) - 1 := by
      simp only [arrK, LIST_END]
      split_ifs <;> first | contradiction | omega
    rw [hfu]
    exact chase_arrK N N N le_rfl le_rfl

theorem active_set_acquire_front_witness :
    1 ≤ 4 ∧
    ((insertK 4 (list_new 4)).2 = (List.range 4).map Int.ofNat ∧
      (list_insert_first (insertK 4 (list_new 4)).1).2 = LIST_ERR_FULL ∧
      usedList (insertK 4 (list_new 4)).1 =
        ((List.range 4).reverse).map Int.ofNat) :=
  ⟨by decide, active_set_acquire_front 4 (by decide)⟩

lemma chainW_congr (arr arr' : ℕ → ℤ) :
    ∀ (l : List ℕ) (p : ℕ), (∀ c ∈ p :: l, arr' c = arr c) →
      chainW arr p l → chainW arr' p l := by
  intro l
  induction l with
  | nil =>
    intro p hag h
    have := hag p (by simp)
    simp only [chainW] at h ⊢
    rw [this, h]
  | cons i t ih =>
    intro p hag h
    obtain ⟨h1, h2⟩ := h
    refine ⟨by rw [hag p (by simp), h1], ?_⟩
    exact ih i (fun c hc => hag c (by simp at hc ⊢; tauto)) h2

lemma chainSeg_congr (arr arr' : ℕ → ℤ) :
    ∀ (l : List ℕ) (p q : ℕ), (∀ c ∈ (p :: l).dropLast, arr' c = arr c) →
      chainSeg arr p l q → chainSeg arr' p l q := by
  intro l
  induction l with
  | nil =>
    intro p q _ h
    exact h
  | cons i t ih =>
    intro p q hag h
    obtain ⟨h1, h2⟩ := h
    have hagp : arr' p = arr p := by
      apply hag
      rw [List.dropLast_cons₂]
      simp
    refine ⟨by rw [hagp, h1], ?_⟩
    refine ih i q (fun c hc => hag c ?_) h2
    rw [List.dropLast_cons₂]
    simp only [List.mem_cons]
    right
    exact hc

lemma chainSeg_last (arr : ℕ → ℤ) :
    ∀ (l : List ℕ) (p q : ℕ), chainSeg arr p l q →
      (l = [] ∧ q = p) ∨ ∃ l', l = l' ++ [q] := by
  intro l
  induction l with
  | nil =>
    intro p q h
    exact Or.inl ⟨rfl, h⟩
  | cons i t ih =>
    intro p q h
    obtain ⟨h1, h2⟩ := h
    rcases ih i q h2 with ⟨rfl, rfl⟩ | ⟨l', rfl⟩
    · exact Or.inr ⟨[], rfl⟩
    · exact Or.inr ⟨i :: l', rfl⟩

lemma chainSeg_mem (arr : ℕ → ℤ) (l : List ℕ) (p q : ℕ)
    (h : chainSeg arr p l q) : q = p ∨ q ∈ l := by
  rcases chainSeg_last arr l p q h with ⟨_, rfl⟩ | ⟨l', rfl⟩
  · exact Or.inl rfl
  · exact Or.inr (by simp)

lemma chainSeg_app (arr : ℕ → ℤ) :
    ∀ (l1 l2 : List ℕ) (p : ℕ),
      chainW arr p (l1 ++ l2) ↔ ∃ q, chainSeg arr p l1 q ∧ chainW arr q l2 := by
  intro l1
  induction l1 with
  | nil =>
    intro l2 p
    constructor
    · intro h
      exact ⟨p, rfl, h⟩
    · rintro ⟨q, rfl, h⟩
      exact h
  | cons i t ih =>
    intro l2 p
    constructor
    · rintro ⟨h1, h2⟩
      obtain ⟨q, hseg, hch⟩ := (ih l2 i).mp h2
      exact ⟨q, ⟨h1, hseg⟩, hch⟩
    · rintro ⟨q, ⟨h1, hseg⟩, hch⟩
      exact ⟨h1, (ih l2 i).mpr ⟨q, hseg, hch⟩⟩

lemma chainSeg_det (arr : ℕ → ℤ) :
    ∀ (l : List ℕ) (p q q' : ℕ),
      chainSeg arr p l q → chainSeg arr p l q' → q = q' := by
  intro l
  induction l with
  | nil =>
    intro p q q' h h'
    rw [h, h']
  | cons i t ih =>
    intro p q q' h h'
    exact ih i q q' h.2 h'.2

lemma chainW_ne_end (arr : ℕ → ℤ) (p : ℕ) (x : ℕ) (xs : List ℕ)
    (h : chainW arr p (x :: xs)) : arr p ≠ LIST_END := by
  rw [h.1]
  simp only [LIST_END]
  omega

lemma lastPtrAux_spec (arr : ℕ → ℤ) :
    ∀ (l : List ℕ) (p fuel : ℕ), chainW arr p l → l.length ≤ fuel →
      chainSeg arr p l (lastPtrAux arr fuel p) ∧
      arr (lastPtrAux arr fuel p) = LIST_END := by
  intro l
  induction l with
  | nil =>
    intro p fuel h _
    have h' : arr p = LIST_END := h
    cases fuel with
    | zero => exact ⟨rfl, h'⟩
    | succ f =>
      rw [lastPtrAux, if_pos h']
      exact ⟨rfl, h'⟩
  | cons i t ih =>
    intro p fuel h hfuel
    obtain ⟨f, rfl⟩ : ∃ f, fuel = f + 1 :=
      ⟨fuel - 1, by simp at hfuel; omega⟩
    rw [lastPtrAux, if_neg (chainW_ne_end arr p i t h)]
    rw [h.1, Int.toNat_natCast]
    obtain ⟨hseg, hend⟩ := ih i f h.2 (by simp at hfuel; omega)
    exact ⟨⟨h.1, hseg⟩, hend⟩

lemma nthPtr_spec (arr : ℕ → ℤ) :
    ∀ (cnt : ℕ) (l : List ℕ) (p : ℕ), chainW arr p l →
      ∃ l1 l2, l = l1 ++ l2 ∧ l1.length = min cnt l.length ∧
        chainSeg arr p l1 (nthPtr arr cnt p) := by
  intro cnt
  induction cnt with
  | zero =>
    intro l p _
    exact ⟨[], l, rfl, by simp, rfl⟩
  | succ cnt ih =>
    intro l p h
    cases l with
    | nil =>
      have h' : arr p = LIST_END := h
      rw [nthPtr, if_pos h']
      exact ⟨[], [], rfl, by simp, rfl⟩
    | cons i t =>
      rw [nthPtr, if_neg (chainW_ne_end arr p i t h)]
      rw [h.1, Int.toNat_natCast]
      obtain ⟨l1, l2, ht, hlen, hseg⟩ := ih t i h.2
      refine ⟨i :: l1, l2, by simp [ht], ?_, ⟨h.1, hseg⟩⟩
      rw [List.length_cons, hlen, List.length_cons, Nat.succ_min_succ]

lemma findPtr_not_mem (arr : ℕ → ℤ) (tg : ℕ) :
    ∀ (l : List ℕ) (p fuel : ℕ), chainW arr p l → l.length ≤ fuel →
      tg ∉ l →
      chainSeg arr p l (findPtrAux arr (tg : ℤ) fuel p) ∧
      arr (findPtrAux arr (tg : ℤ) fuel p) = LIST_END := by
  intro l
  induction l with
  | nil =>
    intro p fuel h _ _
    have h' : arr p = LIST_END := h
    cases fuel with
    | zero => exact ⟨rfl, h'⟩
    | succ f =>
      rw [findPtrAux, if_pos (Or.inl h')]
      exact ⟨rfl, h'⟩
  | cons i t ih =>
    intro p fuel h hfuel hmem
    obtain ⟨f, rfl⟩ : ∃ f, fuel = f + 1 :=
      ⟨fuel - 1, by simp at hfuel; omega⟩
    have hne1 : arr p ≠ LIST_END := chainW_ne_end arr p i t h
    have hne2 : arr p ≠ (tg : ℤ) := by
      rw [h.1]
      simp only [List.mem_cons] at hmem
      exact_mod_cast fun hc => hmem (Or.inl (by exact_mod_cast hc.symm))
    rw [findPtrAux, if_neg (by tauto)]
    rw [h.1, Int.toNat_natCast]
    obtain ⟨hseg, hend⟩ := ih i f h.2 (by simp at hfuel; omega)
      (fun hc => hmem (by simp [hc]))
    exact ⟨⟨h.1, hseg⟩, hend⟩

lemma findPtr_mem (arr : ℕ → ℤ) (tg : ℕ) :
    ∀ (l1 l2 : List ℕ) (p fuel : ℕ),
      chainW arr p (l1 ++ tg :: l2) → (l1 ++ tg :: l2).length ≤ fuel →
      tg ∉ l1 →
      chainSeg arr p l1 (findPtrAux arr (tg : ℤ) fuel p) ∧
      arr (findPtrAux arr (tg : ℤ) fuel p) = (tg : ℤ) := by
  intro l1
  induction l1 with
  | nil =>
    intro l2 p fuel h hfuel _
    obtain ⟨f, rfl⟩ : ∃ f, fuel = f + 1 :=
      ⟨fuel - 1, by simp at hfuel; omega⟩
    rw [findPtrAux, if_pos (Or.inr h.1)]
    exact ⟨rfl, h.1⟩
  | cons j t ih =>
    intro l2 p fuel h hfuel hmem
    obtain ⟨f, rfl⟩ : ∃ f, fuel = f + 1 :=
      ⟨fuel - 1, by simp at hfuel; omega⟩
    have hne1 : arr p ≠ LIST_END := chainW_ne_end arr p j _ h
    have hne2 : arr p ≠ (tg : ℤ) := by
      rw [h.1]
      simp only [List.mem_cons] at hmem
      exact_mod_cast fun hc => hmem (Or.inl (by exact_mod_cast hc.symm))
    rw [findPtrAux, if_neg (by tauto)]
    rw [h.1, Int.toNat_natCast]
    obtain ⟨hseg, hfind⟩ := ih l2 j f h.2 (by simp at hfuel ⊢; omega)
      (fun hc => hmem (by simp [hc]))
    exact ⟨⟨h.1, hseg⟩, hfind⟩

lemma lastPrevAux_spec (arr : ℕ → ℤ) :
    ∀ (l1 : List ℕ) (t : ℕ) (p fuel : ℕ),
      chainW arr p (l1 ++ [t]) → (l1 ++ [t]).length ≤ fuel →
      chainSeg arr p l1 (lastPrevAux arr fuel p) ∧
      arr (lastPrevAux arr fuel p) = (t : ℤ) ∧ arr t = LIST_END := by
  intro l1
  induction l1 with
  | nil =>
    intro t p fuel h hfuel
    obtain ⟨f, rfl⟩ : ∃ f, fuel = f + 1 :=
      ⟨fuel - 1, by simp at hfuel; omega⟩
    have h1 : arr p = (t : ℤ) := h.1
    have h2 : arr t = LIST_END := h.2
    rw [lastPrevAux, if_pos (by rw [h1, Int.toNat_natCast]; exact h2)]
    exact ⟨rfl, h1, h2⟩
  | cons j t1 ih =>
    intro t p fuel h hfuel
    obtain ⟨f, rfl⟩ : ∃ f, fuel = f + 1 :=
      ⟨fuel - 1, by simp at hfuel; omega⟩
    have h1 : arr p = (j : ℤ) := h.1
    have h2 : chainW arr j (t1 ++ [t]) := h.2
    have hjne : arr j ≠ LIST_END := by
      cases t1 with
      | nil => exact chainW_ne_end arr j t [] h2
      | cons x xs => exact chainW_ne_end arr j x _ h2
    rw [lastPrevAux, if_neg (by rw [h1, Int.toNat_natCast]; exact hjne)]
    rw [h1, Int.toNat_natCast]
    obtain ⟨hseg, hlast, hend⟩ := ih t j f h2 (by simp at hfuel ⊢; omega)
    exact ⟨⟨h1, hseg⟩, hlast, hend⟩

/-- Splicing a node `t` out of the chain rooted at head cell `hA` (with the
walking pointer `p` addressing it) and pushing it onto the front of the
chain rooted at head cell `hB`: the common memory effect of
`list_remove_node`, `list_remove_nth`, `list_remove_index` (used → empty)
and `list_insert_index` (empty → used). -/
lemma move_surgery (arr : ℕ → ℤ) (n hA hB : ℕ) (lb l1 l2 : List ℕ) (t p : ℕ)
    (hhA : n ≤ hA) (hhB : n ≤ hB) (hAB : hA ≠ hB)
    (hchA : chainW arr hA (l1 ++ t :: l2)) (hchB : chainW arr hB lb)
    (hnd : ((l1 ++ t :: l2) ++ lb).Nodup)
    (hbnd : ∀ i ∈ (l1 ++ t :: l2) ++ lb, i < n)
    (hseg : chainSeg arr hA l1 p) :
    arr p = (t : ℤ) ∧
    chainW (Function.update (Function.update (Function.update arr
        p (arr t)) t (arr hB)) hB (t : ℤ)) hA (l1 ++ l2) ∧
    chainW (Function.update (Function.update (Function.update arr
        p (arr t)) t (arr hB)) hB (t : ℤ)) hB (t :: lb) := by
  obtain ⟨q, hseg', hch2⟩ := (chainSeg_app arr l1 (t :: l2) hA).mp hchA
  have hq : q = p := chainSeg_det arr l1 hA q p hseg' hseg
  subst hq
  have hpt : arr q = (t : ℤ) := hch2.1
  have hcht : chainW arr t l2 := hch2.2
  have htn : t < n := hbnd t (by simp)
  have hl1n : ∀ c ∈ l1, c < n := fun c hc => hbnd c (by simp [hc])
  have hl2n : ∀ c ∈ l2, c < n := fun c hc => hbnd c (by simp [hc])
  have hlbn : ∀ c ∈ lb, c < n := fun c hc => hbnd c (by simp [hc])
  have hnd1 : (l1 ++ t :: l2).Nodup := by
    rw [List.nodup_append] at hnd
    exact hnd.1
  have ht_notin_l1 : t ∉ l1 := by
    have h1 := hnd1
    rw [List.nodup_append] at h1
    exact fun hc => h1.2.2 hc (by simp)
  have ht_notin_l2 : t ∉ l2 := by
    have h1 := hnd1
    rw [List.nodup_append, List.nodup_cons] at h1
    exact h1.2.1.1
  have hdisj : ∀ c ∈ l1 ++ t :: l2, c ∉ lb := by
    rw [List.nodup_append] at hnd
    exact fun c hc hcb => hnd.2.2 hc hcb
  have ht_notin_lb : t ∉ lb := hdisj t (by simp)
  have hl1_disj_l2 : ∀ c ∈ l1, c ∉ l2 := by
    have h1 := hnd1
    rw [List.nodup_append] at h1
    exact fun c hc hc2 => h1.2.2 hc (by simp [hc2])
  have hl1nd : l1.Nodup := by
    have h1 := hnd1
    rw [List.nodup_append] at h1
    exact h1.1
  have hpmem : q = hA ∨ q ∈ l1 := chainSeg_mem arr l1 hA q hseg
  have hp_ne_t : q ≠ t := by
    rcases hpmem with hpa | hp
    · omega
    · exact fun hc => ht_notin_l1 (hc ▸ hp)
  have hp_ne_hB : q ≠ hB := by
    rcases hpmem with hpa | hp
    · omega
    · have := hl1n q hp
      omega
  have hp_not_l2 : ∀ c ∈ l2, c ≠ q := by
    intro c hc
    rcases hpmem with hpa | hp
    · have := hl2n c hc
      omega
    · exact fun hcp => hl1_disj_l2 q hp (hcp ▸ hc)
  have hp_not_lb : ∀ c ∈ lb, c ≠ q := by
    intro c hc
    rcases hpmem with hpa | hp
    · have := hlbn c hc
      omega
    · exact fun hcp => hdisj q (by simp [hp]) (hcp ▸ hc)
  set A := Function.update (Function.update (Function.update arr
      q (arr t)) t (arr hB)) hB (t : ℤ) with hAdef
  have hAp : A q = arr t := by
    simp [hAdef, Function.update_apply, hp_ne_t, hp_ne_hB]
  have hAt : A t = arr hB := by
    simp [hAdef, Function.update_apply, (show t ≠ hB by omega)]
  have hAhB : A hB = (t : ℤ) := by
    simp [hAdef, Function.update_apply]
  have hAother : ∀ c, c ≠ q → c ≠ t → c ≠ hB → A c = arr c := by
    intro c h1 h2 h3
    simp [hAdef, Function.update_apply, h1, h2, h3]
  refine ⟨hpt, ?_, ?_⟩
  · rw [chainSeg_app]
    refine ⟨q, ?_, ?_⟩
    · refine chainSeg_congr arr A l1 hA q ?_ hseg
      intro c hc
      rcases chainSeg_last arr l1 hA q hseg with ⟨hnil, hpa⟩ | ⟨l1', hl1⟩
      · subst hnil
        simp at hc
      · have hdl : (hA :: l1).dropLast = hA :: l1' := by
          rw [hl1, show hA :: (l1' ++ [q]) = (hA :: l1') ++ [q] by simp,
            List.dropLast_concat]
        rw [hdl] at hc
        have hq_in_l1 : q ∈ l1 := by
          rw [hl1]
          simp
        have hq_lt : q < n := hl1n q hq_in_l1
        rcases List.mem_cons.mp hc with rfl | hcl1'
        · exact hAother c (by omega) (by omega) (by omega)
        · have hcl1 : c ∈ l1 := by
            rw [hl1]
            simp [hcl1']
          have hq_notin_l1' : q ∉ l1' := by
            rw [hl1, List.nodup_append] at hl1nd
            exact fun hcq => hl1nd.2.2 hcq (by simp)
          have hcn : c < n := hl1n c hcl1
          refine hAother c ?_ ?_ (by omega)
          · exact fun hcq => hq_notin_l1' (hcq ▸ hcl1')
          · exact fun hct => ht_notin_l1 (hct ▸ hcl1)
    · cases l2 with
      | nil =>
        have hend : arr t = LIST_END := hcht
        show A q = LIST_END
        rw [hAp, hend]
      | cons h2 t2 =>
        refine ⟨by rw [hAp]; exact hcht.1, ?_⟩
        refine chainW_congr arr A t2 h2 ?_ hcht.2
        intro c hc
        have hcn : c < n := hl2n c hc
        exact hAother c (hp_not_l2 c hc) (fun hct => ht_notin_l2 (hct ▸ hc))
          (by omega)
  · refine ⟨hAhB, ?_⟩
    cases lb with
    | nil =>
      have hend : arr hB = LIST_END := hchB
      show A t = LIST_END
      rw [hAt, hend]
    | cons bh bt =>
      refine ⟨by rw [hAt]; exact hchB.1, ?_⟩
      refine chainW_congr arr A bt bh ?_ hchB.2
      intro c hc
      have hcn : c < n := hlbn c hc
      exact hAother c (hp_not_lb c hc) (fun hct => ht_notin_lb (hct ▸ hc))
        (by omega)

/-- Taking the head node `e` of the chain rooted at `hB` and linking it into
the chain rooted at `hA` after the walking pointer `p`: the common memory
effect of `list_insert_first`, `list_insert_nth` and `list_insert_last`
(empty head → chosen position of the used list). -/
lemma take_head_surgery (arr : ℕ → ℤ) (n hA hB : ℕ) (lb l1 l2 : List ℕ)
    (e p : ℕ)
    (hhA : n ≤ hA) (hhB : n ≤ hB) (hAB : hA ≠ hB)
    (hchA : chainW arr hA (l1 ++ l2)) (hchB : chainW arr hB (e :: lb))
    (hnd : ((l1 ++ l2) ++ e :: lb).Nodup)
    (hbnd : ∀ i ∈ (l1 ++ l2) ++ e :: lb, i < n)
    (hseg : chainSeg arr hA l1 p) :
    arr hB = (e : ℤ) ∧
    chainW (Function.update (Function.update (Function.update arr
        hB (arr e)) e (arr p)) p (e : ℤ)) hA (l1 ++ e :: l2) ∧
    chainW (Function.update (Function.update (Function.update arr
        hB (arr e)) e (arr p)) p (e : ℤ)) hB lb := by
  obtain ⟨q, hseg', hch2⟩ := (chainSeg_app arr l1 l2 hA).mp hchA
  have hq : q = p := chainSeg_det arr l1 hA q p hseg' hseg
  subst hq
  have hen : e < n := hbnd e (by simp)
  have hl1n : ∀ c ∈ l1, c < n := fun c hc => hbnd c (by simp [hc])
  have hl2n : ∀ c ∈ l2, c < n := fun c hc => hbnd c (by simp [hc])
  have hlbn : ∀ c ∈ lb, c < n := fun c hc => hbnd c (by simp [hc])
  have hdisj : ∀ c ∈ l1 ++ l2, c ∉ e :: lb := by
    rw [List.nodup_append] at hnd
    exact fun c hc hcb => hnd.2.2 hc hcb
  have he_notin_l1 : e ∉ l1 := fun hc => hdisj e (by simp [hc]) (by simp)
  have he_notin_l2 : e ∉ l2 := fun hc => hdisj e (by simp [hc]) (by simp)
  have he_notin_lb : e ∉ lb := by
    rw [List.nodup_append, List.nodup_cons] at hnd
    exact hnd.2.1.1
  have hl1_disj_l2 : ∀ c ∈ l1, c ∉ l2 := by
    rw [List.nodup_append, List.nodup_append] at hnd
    exact fun c hc hc2 => hnd.1.2.2 hc hc2
  have hl1nd : l1.Nodup := by
    rw [List.nodup_append, List.nodup_append] at hnd
    exact hnd.1.1
  have hpmem : q = hA ∨ q ∈ l1 := chainSeg_mem arr l1 hA q hseg
  have hp_ne_e : q ≠ e := by
    rcases hpmem with hpa | hp
    · omega
    · exact fun hc => he_notin_l1 (hc ▸ hp)
  have hp_ne_hB : q ≠ hB := by
    rcases hpmem with hpa | hp
    · omega
    · have := hl1n q hp
      omega
  have hp_not_l2 : ∀ c ∈ l2, c ≠ q := by
    intro c hc
    rcases hpmem with hpa | hp
    · have := hl2n c hc
      omega
    · exact fun hcp => hl1_disj_l2 q hp (hcp ▸ hc)
  have hp_not_lb : ∀ c ∈ lb, c ≠ q := by
    intro c hc
    rcases hpmem with hpa | hp
    · have := hlbn c hc
      omega
    · exact fun hcp => hdisj q (by simp [hp]) (by simp [hcp ▸ hc])
  set A := Function.update (Function.update (Function.update arr
      hB (arr e)) e (arr q)) q (e : ℤ) with hAdef
  have hAq : A q = (e : ℤ) := by
    simp [hAdef, Function.update_apply]
  have hAe : A e = arr q := by
    simp [hAdef, Function.update_apply, (show e ≠ q from fun h => hp_ne_e h.symm),
      (show e ≠ hB by omega)]
  have hAhB : A hB = arr e := by
    simp [hAdef, Function.update_apply, (show hB ≠ q from fun h => hp_ne_hB h.symm),
      (show hB ≠ e by omega)]
  have hAother : ∀ c, c ≠ q → c ≠ e → c ≠ hB → A c = arr c := by
    intro c h1 h2 h3
    simp [hAdef, Function.update_apply, h1, h2, h3]
  refine ⟨hchB.1, ?_, ?_⟩
  · rw [chainSeg_app]
    refine ⟨q, ?_, ?_⟩
    · refine chainSeg_congr arr A l1 hA q ?_ hseg
      intro c hc
      rcases chainSeg_last arr l1 hA q hseg with ⟨hnil, hpa⟩ | ⟨l1', hl1⟩
      · subst hnil
        simp at hc
      · have hdl : (hA :: l1).dropLast = hA :: l1' := by
          rw [hl1, show hA :: (l1' ++ [q]) = (hA :: l1') ++ [q] by simp,
            List.dropLast_concat]
        rw [hdl] at hc
        have hq_in_l1 : q ∈ l1 := by
          rw [hl1]
          simp
        have hq_lt : q < n := hl1n q hq_in_l1
        rcases List.mem_cons.mp hc with rfl | hcl1'
        · exact hAother c (by omega) (by omega) (by omega)
        · have hcl1 : c ∈ l1 := by
            rw [hl1]
            simp [hcl1']
          have hq_notin_l1' : q ∉ l1' := by
            rw [hl1, List.nodup_append] at hl1nd
            exact fun hcq => hl1nd.2.2 hcq (by simp)
          have hcn : c < n := hl1n c hcl1
          refine hAother c ?_ ?_ (by omega)
          · exact fun hcq => hq_notin_l1' (hcq ▸ hcl1')
          · exact fun hce => he_notin_l1 (hce ▸ hcl1)
    · refine ⟨hAq, ?_⟩
      cases l2 with
      | nil =>
        have hend : arr q = LIST_END := hch2
        show A e = LIST_END
        rw [hAe, hend]
      | cons h2 t2 =>
        refine ⟨by rw [hAe]; exact hch2.1, ?_⟩
        refine chainW_congr arr A t2 h2 ?_ hch2.2
        intro c hc
        have hcn : c < n := hl2n c hc
        exact hAother c (hp_not_l2 c hc) (fun hce => he_notin_l2 (hce ▸ hc))
          (by omega)
  · cases lb with
    | nil =>
      have hend : arr e = LIST_END := hchB.2
      show A hB = LIST_END
      rw [hAhB, hend]
    | cons bh bt =>
      refine ⟨by rw [hAhB]; exact hchB.2.1, ?_⟩
      refine chainW_congr arr A bt bh ?_ hchB.2.2
      intro c hc
      have hcn : c < n := hlbn c hc
      exact hAother c (hp_not_lb c hc) (fun hce => he_notin_lb (hce ▸ hc))
        (by omega)

lemma listRepr_build (s' : TList) (us' es' other : List ℕ)
    (h1 : chainW s'.arr s'.len us') (h2 : chainW s'.arr (s'.len + 1) es')
    (hperm : (us' ++ es').Perm other)
    (hnd : other.Nodup) (hbnd : ∀ i ∈ other, i < s'.len) :
    listRepr s' us' es' :=
  ⟨h1, h2, hperm.nodup_iff.mpr hnd, fun i hi => hbnd i (hperm.subset hi)⟩

lemma repr_lengths (s : TList) (us es : List ℕ) (h : listRepr s us es) :
    us.length + es.length ≤ s.len := by
  have hsub : (us ++ es) ⊆ List.range s.len := by
    intro x hx
    rw [List.mem_range]
    exact h.2.2.2 x hx
  have hle := (h.2.2.1.subperm hsub).length_le
  simpa using hle

lemma list_insert_first_spec (s : TList) (us es : List ℕ)
    (hrepr : listRepr s us es) :
    ∃ us' es', (list_insert_first s).1.len = s.len ∧
      listRepr (list_insert_first s).1 us' es' ∧
      (us' ++ es').Perm (us ++ es) := by
  obtain ⟨hu, he, hnd, hbnd⟩ := hrepr
  cases es with
  | nil =>
    have hguard : s.arr (s.len + 1) = LIST_END := he
    refine ⟨us, [], ?_, ?_, List.Perm.refl _⟩
    · rw [list_insert_first, if_pos hguard]
    · rw [list_insert_first, if_pos hguard]
      exact ⟨hu, he, hnd, hbnd⟩
  | cons e es' =>
    have hfe : s.arr (s.len + 1) = (e : ℤ) := he.1
    have hsur := take_head_surgery s.arr s.len s.len (s.len + 1) es' [] us
      e s.len le_rfl (by omega) (by omega) hu he hnd hbnd rfl
    obtain ⟨_, hchU, hchE⟩ := hsur
    have hguard : s.arr (s.len + 1) ≠ LIST_END := by
      rw [hfe]
      simp only [LIST_END]
      omega
    have htN : ((s.arr (s.len + 1))).toNat = e := by
      rw [hfe]
      exact Int.toNat_natCast e
    have hstate : list_insert_first s =
        (⟨s.len, Function.update (Function.update (Function.update s.arr
          (s.len + 1) (s.arr e)) e (s.arr s.len)) s.len (e : ℤ)⟩, (e : ℤ)) := by
      simp only [list_insert_first, listSet]
      rw [if_neg hguard]
      rw [Prod.mk.injEq]
      constructor
      · refine congrArg (TList.mk s.len) ?_
        rw [htN, Function.update_noteq (show s.len ≠ s.len + 1 by omega), hfe]
      · exact hfe
    have hperm : ((e :: us) ++ es').Perm (us ++ e :: es') := by
      rw [show (e :: us) ++ es' = e :: (us ++ es') from rfl]
      exact List.perm_middle.symm
    refine ⟨e :: us, es', by rw [hstate], ?_, hperm⟩
    rw [hstate]
    exact listRepr_build _ (e :: us) es' (us ++ e :: es') hchU hchE hperm hnd hbnd

lemma list_remove_node_spec (s : TList) (us es l1 l2 : List ℕ) (t p : ℕ)
    (hrepr : listRepr s us es) (hus : us = l1 ++ t :: l2)
    (hseg : chainSeg s.arr s.len l1 p) :
    ∃ us' es', (list_remove_node s p).1.len = s.len ∧
      listRepr (list_remove_node s p).1 us' es' ∧
      (us' ++ es').Perm (us ++ es) := by
  obtain ⟨hu, he, hnd, hbnd⟩ := hrepr
  subst hus
  have hsur := move_surgery s.arr s.len s.len (s.len + 1) es l1 l2 t p
    le_rfl (by omega) (by omega) hu he hnd hbnd hseg
  obtain ⟨hpt, hchU, hchE⟩ := hsur
  have hguard : s.arr s.len ≠ LIST_END := by
    cases l1 with
    | nil => exact chainW_ne_end s.arr s.len t l2 hu
    | cons x xs => exact chainW_ne_end s.arr s.len x _ hu
  have hptN : (s.arr p).toNat = t := by
    rw [hpt]
    exact Int.toNat_natCast t
  have hp_ne_len1 : p ≠ s.len + 1 := by
    rcases chainSeg_mem s.arr l1 s.len p hseg with hpa | hp
    · omega
    · have : p < s.len := hbnd p (by simp [hp])
      omega
  have hstate : list_remove_node s p =
      (⟨s.len, Function.update (Function.update (Function.update s.arr
        p (s.arr t)) t (s.arr (s.len + 1))) (s.len + 1) (t : ℤ)⟩, (t : ℤ)) := by
    simp only [list_remove_node, listSet]
    rw [if_neg hguard]
    rw [Prod.mk.injEq]
    constructor
    · refine congrArg (TList.mk s.len) ?_
      rw [hptN, Function.update_noteq (fun h => hp_ne_len1 h.symm), hpt]
    · exact hpt
  have hperm : ((l1 ++ l2) ++ t :: es).Perm ((l1 ++ t :: l2) ++ es) := by
    have h1 : ((l1 ++ l2) ++ t :: es).Perm (t :: ((l1 ++ l2) ++ es)) :=
      List.perm_middle
    have h3 : (l1 ++ t :: (l2 ++ es)).Perm (t :: (l1 ++ (l2 ++ es))) :=
      List.perm_middle
    rw [show (l1 ++ t :: l2) ++ es = l1 ++ t :: (l2 ++ es) by simp]
    refine h1.trans ?_
    rw [List.append_assoc]
    exact h3.symm
  refine ⟨l1 ++ l2, t :: es, by rw [hstate], ?_, hperm⟩
  rw [hstate]
  exact listRepr_build _ (l1 ++ l2) (t :: es) ((l1 ++ t :: l2) ++ es)
    hchU hchE hperm hnd hbnd

lemma list_insert_nth_spec (s : TList) (us es : List ℕ) (nn : ℕ)
    (hrepr : listRepr s us es) :
    ∃ us' es', (list_insert_nth s nn).1.len = s.len ∧
      listRepr (list_insert_nth s nn).1 us' es' ∧
      (us' ++ es').Perm (us ++ es) := by
  obtain ⟨hu, he, hnd, hbnd⟩ := hrepr
  cases es with
  | nil =>
    have hguard : s.arr (s.len + 1) = LIST_END := he
    refine ⟨us, [], ?_, ?_, List.Perm.refl _⟩
    · rw [list_insert_nth, if_pos hguard]
    · rw [list_insert_nth, if_pos hguard]
      exact ⟨hu, he, hnd, hbnd⟩
  | cons e es' =>
    have hfe : s.arr (s.len + 1) = (e : ℤ) := he.1
    obtain ⟨l1, l2, rfl, hlen1, hseg⟩ := nthPtr_spec s.arr nn us s.len hu
    have hsur := take_head_surgery s.arr s.len s.len (s.len + 1) es' l1 l2
      e (nthPtr s.arr nn s.len) le_rfl (by omega) (by omega) hu he hnd hbnd hseg
    obtain ⟨_, hchU, hchE⟩ := hsur
    have hguard : s.arr (s.len + 1) ≠ LIST_END := by
      rw [hfe]
      simp only [LIST_END]
      omega
    have htN : ((s.arr (s.len + 1))).toNat = e := by
      rw [hfe]
      exact Int.toNat_natCast e
    have hp_ne_len1 : nthPtr s.arr nn s.len ≠ s.len + 1 := by
      rcases chainSeg_mem s.arr l1 s.len (nthPtr s.arr nn s.len) hseg with
        hpa | hp
      · omega
      · have : nthPtr s.arr nn s.len < s.len := hbnd _ (by simp [hp])
        omega
    have hstate : list_insert_nth s nn =
        (⟨s.len, Function.update (Function.update (Function.update s.arr
          (s.len + 1) (s.arr e)) e (s.arr (nthPtr s.arr nn s.len)))
          (nthPtr s.arr nn s.len) (e : ℤ)⟩, (e : ℤ)) := by
      simp only [list_insert_nth, listSet]
      rw [if_neg hguard]
      rw [Prod.mk.injEq]
      constructor
      · refine congrArg (TList.mk s.len) ?_
        rw [htN, Function.update_noteq hp_ne_len1, hfe]
      · exact hfe
    have hperm : ((l1 ++ e :: l2) ++ es').Perm ((l1 ++ l2) ++ e :: es') := by
      rw [show (l1 ++ e :: l2) ++ es' = l1 ++ e :: (l2 ++ es') by simp]
      refine List.perm_middle.trans ?_
      rw [show l1 ++ (l2 ++ es') = (l1 ++ l2) ++ es' from
        (List.append_assoc l1 l2 es').symm]
      exact List.perm_middle.symm
    refine ⟨l1 ++ e :: l2, es', by rw [hstate], ?_, hperm⟩
    rw [hstate]
    exact listRepr_build _ (l1 ++ e :: l2) es' ((l1 ++ l2) ++ e :: es')
      hchU hchE hperm hnd hbnd

lemma list_remove_nth_spec (s : TList) (us es : List ℕ) (nn : ℕ)
    (hrepr : listRepr s us es) :
    ∃ us' es', (list_remove_nth s nn).1.len = s.len ∧
      listRepr (list_remove_nth s nn).1 us' es' ∧
      (us' ++ es').Perm (us ++ es) := by
  obtain ⟨hu, he, hnd, hbnd⟩ := hrepr
  cases us with
  | nil =>
    have hguard : s.arr s.len = LIST_END := hu
    refine ⟨[], es, ?_, ?_, List.Perm.refl _⟩
    · rw [list_remove_nth, if_pos hguard]
    · rw [list_remove_nth, if_pos hguard]
      exact ⟨hu, he, hnd, hbnd⟩
  | cons u0 urest =>
    have hguard : s.arr s.len ≠ LIST_END := chainW_ne_end s.arr s.len u0 urest hu
    obtain ⟨l1, l2, hsplit, hlen1, hseg⟩ :=
      nthPtr_spec s.arr nn (u0 :: urest) s.len hu
    set q := nthPtr s.arr nn s.len with hqdef
    obtain ⟨q0, hseg', hch2⟩ :=
      (chainSeg_app s.arr l1 l2 s.len).mp (hsplit ▸ hu)
    have hq : q0 = q :=
      chainSeg_det s.arr l1 s.len q0 q hseg' hseg
    subst hq
    cases l2 with
    | nil =>
      have hqe : s.arr q = LIST_END := hch2
      refine ⟨u0 :: urest, es, ?_, ?_, List.Perm.refl _⟩
      · rw [list_remove_nth, if_neg hguard, if_pos hqe]
      · rw [list_remove_nth, if_neg hguard, if_pos hqe]
        exact ⟨hu, he, hnd, hbnd⟩
    | cons t l2' =>
      rw [hsplit] at hu hnd hbnd
      have hsur := move_surgery s.arr s.len s.len (s.len + 1) es l1 l2' t q
        le_rfl (by omega) (by omega) hu he hnd hbnd hseg
      obtain ⟨hpt, hchU, hchE⟩ := hsur
      have hptN : (s.arr q).toNat = t := by
        rw [hpt]
        exact Int.toNat_natCast t
      have hqe : s.arr q ≠ LIST_END := by
        rw [hpt]
        simp only [LIST_END]
        omega
      have hp_ne_len1 : q ≠ s.len + 1 := by
        rcases chainSeg_mem s.arr l1 s.len q hseg with hpa | hp
        · omega
        · have : q < s.len := hbnd q (by simp [hp])
          omega
      have hstate : list_remove_nth s nn =
          (⟨s.len, Function.update (Function.update (Function.update s.arr
            q (s.arr t)) t (s.arr (s.len + 1))) (s.len + 1) (t : ℤ)⟩,
            (t : ℤ)) := by
        simp only [list_remove_nth, listSet]
        rw [← hqdef, if_neg hguard, if_neg hqe]
        rw [Prod.mk.injEq]
        constructor
        · refine congrArg (TList.mk s.len) ?_
          rw [hptN, Function.update_noteq (fun h => hp_ne_len1 h.symm), hpt]
        · exact hpt
      have hperm : ((l1 ++ l2') ++ t :: es).Perm ((l1 ++ t :: l2') ++ es) := by
        have h1 : ((l1 ++ l2') ++ t :: es).Perm (t :: ((l1 ++ l2') ++ es)) :=
          List.perm_middle
        have h3 : (l1 ++ t :: (l2' ++ es)).Perm (t :: (l1 ++ (l2' ++ es))) :=
          List.perm_middle
        rw [show (l1 ++ t :: l2') ++ es = l1 ++ t :: (l2' ++ es) by simp]
        refine h1.trans ?_
        rw [List.append_assoc]
        exact h3.symm
      refine ⟨l1 ++ l2', t :: es, by rw [hstate], ?_, hsplit ▸ hperm⟩
      rw [hstate]
      exact listRepr_build _ (l1 ++ l2') (t :: es) ((l1 ++ t :: l2') ++ es)
        hchU hchE hperm hnd hbnd

lemma list_remove_index_spec (s : TList) (us es : List ℕ) (i : ℕ)
    (hrepr : listRepr s us es) :
    ∃ us' es', (list_remove_index s i).1.len = s.len ∧
      listRepr (list_remove_index s i).1 us' es' ∧
      (us' ++ es').Perm (us ++ es) := by
  have hlens := repr_lengths s us es hrepr
  obtain ⟨hu, he, hnd, hbnd⟩ := hrepr
  by_cases hi : i ∈ us
  · obtain ⟨d1, d2, hsplit⟩ := List.append_of_mem hi
    have hind1 : i ∉ d1 := by
      intro hid1
      have hnd' : us.Nodup := by
        rw [List.nodup_append] at hnd
        exact hnd.1
      rw [hsplit, List.nodup_append] at hnd'
      exact hnd'.2.2 hid1 (by simp)
    have hfuel : us.length ≤ s.len + 1 := by omega
    obtain ⟨hseg, hfind⟩ := findPtr_mem s.arr i d1 d2 s.len (s.len + 1)
      (hsplit ▸ hu) (by rw [← hsplit]; omega) hind1
    set q := findPtrAux s.arr (i : ℤ) (s.len + 1) s.len with hqdef
    rw [hsplit] at hu hnd hbnd
    have hsur := move_surgery s.arr s.len s.len (s.len + 1) es d1 d2 i q
      le_rfl (by omega) (by omega) hu he hnd hbnd hseg
    obtain ⟨hpt, hchU, hchE⟩ := hsur
    have hqe : s.arr q ≠ LIST_END := by
      rw [hfind]
      simp only [LIST_END]
      omega
    have hp_ne_len1 : q ≠ s.len + 1 := by
      rcases chainSeg_mem s.arr d1 s.len q hseg with hpa | hp
      · omega
      · have : q < s.len := hbnd q (by simp [hp])
        omega
    have hstate : list_remove_index s i =
        (⟨s.len, Function.update (Function.update (Function.update s.arr
          q (s.arr i)) i (s.arr (s.len + 1))) (s.len + 1) (i : ℤ)⟩,
          (i : ℤ)) := by
      simp only [list_remove_index, listSet]
      rw [← hqdef, if_neg hqe]
      rw [Prod.mk.injEq]
      refine ⟨congrArg (TList.mk s.len) ?_, rfl⟩
      rw [Function.update_noteq (fun h => hp_ne_len1 h.symm)]
    have hperm : ((d1 ++ d2) ++ i :: es).Perm ((d1 ++ i :: d2) ++ es) := by
      have h1 : ((d1 ++ d2) ++ i :: es).Perm (i :: ((d1 ++ d2) ++ es)) :=
        List.perm_middle
      have h3 : (d1 ++ i :: (d2 ++ es)).Perm (i :: (d1 ++ (d2 ++ es))) :=
        List.perm_middle
      rw [show (d1 ++ i :: d2) ++ es = d1 ++ i :: (d2 ++ es) by simp]
      refine h1.trans ?_
      rw [List.append_assoc]
      exact h3.symm
    refine ⟨d1 ++ d2, i :: es, by rw [hstate], ?_, hsplit ▸ hperm⟩
    rw [hstate]
    exact listRepr_build _ (d1 ++ d2) (i :: es) ((d1 ++ i :: d2) ++ es)
      hchU hchE hperm hnd hbnd
  · obtain ⟨hseg, hfind⟩ := findPtr_not_mem s.arr i us s.len (s.len + 1)
      hu (by omega) hi
    refine ⟨us, es, ?_, ?_, List.Perm.refl _⟩
    · rw [list_remove_index, if_pos hfind]
    · rw [list_remove_index, if_pos hfind]
      exact ⟨hu, he, hnd, hbnd⟩

lemma list_insert_index_spec (s : TList) (us es : List ℕ) (i : ℕ)
    (hrepr : listRepr s us es) :
    ∃ us' es', (list_insert_index s i).1.len = s.len ∧
      listRepr (list_insert_index s i).1 us' es' ∧
      (us' ++ es').Perm (us ++ es) := by
  have hlens := repr_lengths s us es hrepr
  obtain ⟨hu, he, hnd, hbnd⟩ := hrepr
  have hndswap : (es ++ us).Nodup :=
    (List.perm_append_comm).nodup_iff.mpr hnd
  have hbndswap : ∀ c ∈ es ++ us, c < s.len := fun c hc =>
    hbnd c (List.perm_append_comm.subset hc)
  by_cases hi : i ∈ es
  · obtain ⟨d1, d2, hsplit⟩ := List.append_of_mem hi
    have hind1 : i ∉ d1 := by
      intro hid1
      have hnd' : es.Nodup := by
        rw [List.nodup_append] at hnd
        exact hnd.2.1
      rw [hsplit, List.nodup_append] at hnd'
      exact hnd'.2.2 hid1 (by simp)
    obtain ⟨hseg, hfind⟩ := findPtr_mem s.arr i d1 d2 (s.len + 1) (s.len + 1)
      (hsplit ▸ he) (by rw [← hsplit]; omega) hind1
    set q := findPtrAux s.arr (i : ℤ) (s.len + 1) (s.len + 1) with hqdef
    rw [hsplit] at he hndswap hbndswap
    have hsur := move_surgery s.arr s.len (s.len + 1) s.len us d1 d2 i q
      (by omega) le_rfl (by omega) he hu
      (by rwa [show (d1 ++ i :: d2) ++ us = (d1 ++ i :: d2) ++ us from rfl])
      hbndswap hseg
    obtain ⟨hpt, hchE2, hchU2⟩ := hsur
    have hqe : s.arr q ≠ LIST_END := by
      rw [hfind]
      simp only [LIST_END]
      omega
    have hp_ne_len : q ≠ s.len := by
      rcases chainSeg_mem s.arr d1 (s.len + 1) q hseg with hpa | hp
      · omega
      · have : q < s.len := hbndswap q (by simp [hp])
        omega
    have hstate : list_insert_index s i =
        (⟨s.len, Function.update (Function.update (Function.update s.arr
          q (s.arr i)) i (s.arr s.len)) s.len (i : ℤ)⟩, (i : ℤ)) := by
      simp only [list_insert_index, listSet]
      rw [← hqdef, if_neg hqe]
      rw [Prod.mk.injEq]
      refine ⟨congrArg (TList.mk s.len) ?_, rfl⟩
      rw [Function.update_noteq (fun h => hp_ne_len h.symm)]
    have hperm : ((i :: us) ++ (d1 ++ d2)).Perm (us ++ (d1 ++ i :: d2)) := by
      rw [show (i :: us) ++ (d1 ++ d2) = i :: (us ++ d1 ++ d2) by simp,
        show us ++ (d1 ++ i :: d2) = (us ++ d1) ++ i :: d2 by simp]
      refine ?_
      have h3 : ((us ++ d1) ++ i :: d2).Perm (i :: ((us ++ d1) ++ d2)) :=
        List.perm_middle
      refine List.Perm.trans ?_ h3.symm
      rw [List.append_assoc]
    refine ⟨i :: us, d1 ++ d2, by rw [hstate], ?_, hsplit ▸ hperm⟩
    rw [hstate]
    refine listRepr_build _ (i :: us) (d1 ++ d2) (us ++ (d1 ++ i :: d2))
      hchU2 hchE2 hperm ?_ ?_
    · exact (List.perm_append_comm).nodup_iff.mp hndswap
    · exact fun c hc => hbndswap c (List.perm_append_comm.subset hc)
  · obtain ⟨hseg, hfind⟩ := findPtr_not_mem s.arr i es (s.len + 1) (s.len + 1)
      he (by omega) hi
    refine ⟨us, es, ?_, ?_, List.Perm.refl _⟩
    · rw [list_insert_index, if_pos hfind]
    · rw [list_insert_index, if_pos hfind]
      exact ⟨hu, he, hnd, hbnd⟩

lemma list_insert_last_spec (s : TList) (us es : List ℕ)
    (hrepr : listRepr s us es) :
    ∃ us' es', (list_insert_last s).1.len = s.len ∧
      listRepr (list_insert_last s).1 us' es' ∧
      (us' ++ es').Perm (us ++ es) := by
  have hlens := repr_lengths s us es hrepr
  obtain ⟨hu, he, hnd, hbnd⟩ := hrepr
  cases es with
  | nil =>
    have hguard : s.arr (s.len + 1) = LIST_END := he
    refine ⟨us, [], ?_, ?_, List.Perm.refl _⟩
    · rw [list_insert_last, if_pos hguard]
    · rw [list_insert_last, if_pos hguard]
      exact ⟨hu, he, hnd, hbnd⟩
  | cons e es' =>
    have hfe : s.arr (s.len + 1) = (e : ℤ) := he.1
    obtain ⟨hseg, hend⟩ := lastPtrAux_spec s.arr us s.len (s.len + 1) hu
      (by simp at hlens ⊢; omega)
    set p := lastPtrAux s.arr (s.len + 1) s.len with hpdef
    have hu' : chainW s.arr s.len (us ++ []) := by rwa [List.append_nil]
    have hnd' : ((us ++ []) ++ e :: es').Nodup := by rwa [List.append_nil]
    have hbnd' : ∀ c ∈ (us ++ []) ++ e :: es', c < s.len := by
      rw [List.append_nil]
      exact hbnd
    have hsur := take_head_surgery s.arr s.len s.len (s.len + 1) es' us []
      e p le_rfl (by omega) (by omega) hu' he hnd' hbnd' hseg
    obtain ⟨_, hchU, hchE⟩ := hsur
    have hpmem := chainSeg_mem s.arr us s.len p hseg
    have hen : e < s.len := hbnd e (by simp)
    have he_notin_us : e ∉ us := by
      rw [List.nodup_append] at hnd
      exact fun hc => hnd.2.2 hc (by simp)
    have hp_ne_len1 : p ≠ s.len + 1 := by
      rcases hpmem with hpa | hp
      · omega
      · have : p < s.len := hbnd p (by simp [hp])
        omega
    have hp_ne_e : p ≠ e := by
      rcases hpmem with hpa | hp
      · omega
      · exact fun hpe => he_notin_us (hpe ▸ hp)
    have hguard : s.arr (s.len + 1) ≠ LIST_END := by
      rw [hfe]
      simp only [LIST_END]
      omega
    have h1p : Function.update s.arr p (s.arr (s.len + 1)) p = (e : ℤ) := by
      rw [Function.update_same, hfe]
    have hstate : list_insert_last s =
        (⟨s.len, Function.update (Function.update (Function.update s.arr
          (s.len + 1) (s.arr e)) e (s.arr p)) p (e : ℤ)⟩, (e : ℤ)) := by
      simp only [list_insert_last, listSet]
      rw [← hpdef, if_neg hguard]
      rw [Function.update_noteq hp_ne_len1, h1p, Int.toNat_natCast,
        Function.update_noteq (show (e : ℕ) ≠ p from fun h => hp_ne_e h.symm),
        hfe]
      rw [Prod.mk.injEq]
      constructor
      · refine congrArg (TList.mk s.len) ?_
        funext c
        simp only [Function.update_apply]
        split_ifs <;> first | rfl | omega | (exact hend.symm) | (exact hend)
      · simp [Function.update_apply, hp_ne_e, hp_ne_len1]
    have hperm : ((us ++ [e]) ++ es').Perm (us ++ e :: es') := by
      rw [List.append_assoc]
      exact List.Perm.refl _
    refine ⟨us ++ [e], es', by rw [hstate], ?_, hperm⟩
    rw [hstate]
    exact listRepr_build _ (us ++ [e]) es' (us ++ e :: es') hchU hchE
      hperm hnd hbnd

lemma list_remove_last_spec (s : TList) (us es : List ℕ)
    (hrepr : listRepr s us es) :
    ∃ us' es', (list_remove_last s).1.len = s.len ∧
      listRepr (list_remove_last s).1 us' es' ∧
      (us' ++ es').Perm (us ++ es) := by
  have hlens := repr_lengths s us es hrepr
  obtain ⟨hu, he, hnd, hbnd⟩ := hrepr
  rcases List.eq_nil_or_concat us with rfl | ⟨l1, t, rfl⟩
  · have hguard : s.arr s.len = LIST_END := hu
    refine ⟨[], es, ?_, ?_, List.Perm.refl _⟩
    · rw [list_remove_last, if_pos hguard]
    · rw [list_remove_last, if_pos hguard]
      exact ⟨hu, he, hnd, hbnd⟩
  · simp only [List.concat_eq_append] at hu hnd hbnd hlens ⊢
    have hguard : s.arr s.len ≠ LIST_END := by
      cases l1 with
      | nil => exact chainW_ne_end s.arr s.len t [] hu
      | cons x xs => exact chainW_ne_end s.arr s.len x _ hu
    obtain ⟨hseg, hlast, hend⟩ := lastPrevAux_spec s.arr l1 t s.len
      (s.len + 1) hu (by simp at hlens ⊢; omega)
    set p := lastPrevAux s.arr (s.len + 1) s.len with hpdef
    have hsur := move_surgery s.arr s.len s.len (s.len + 1) es l1 [] t p
      le_rfl (by omega) (by omega) hu he hnd hbnd hseg
    obtain ⟨hpt2, hchU, hchE⟩ := hsur
    rw [List.append_nil] at hchU
    have hptN : (s.arr p).toNat = t := by
      rw [hpt2]
      exact Int.toNat_natCast t
    have htn : t < s.len := hbnd t (by simp)
    have ht_notin_l1 : t ∉ l1 := by
      have hus_nd : (l1 ++ [t]).Nodup := by
        rw [List.nodup_append] at hnd
        exact hnd.1
      rw [List.nodup_append] at hus_nd
      exact fun hc => hus_nd.2.2 hc (by simp)
    have hpmem := chainSeg_mem s.arr l1 s.len p hseg
    have hp_ne_t : p ≠ t := by
      rcases hpmem with hpa | hp
      · omega
      · exact fun hpe => ht_notin_l1 (hpe ▸ hp)
    have hp_ne_len1 : p ≠ s.len + 1 := by
      rcases hpmem with hpa | hp
      · omega
      · have : p < s.len := hbnd p (by simp [hp])
        omega
    have hstate : list_remove_last s =
        (⟨s.len, Function.update (Function.update (Function.update s.arr
          p (s.arr t)) t (s.arr (s.len + 1))) (s.len + 1) (t : ℤ)⟩,
          LIST_END) := by
      simp only [list_remove_last, listSet]
      rw [← hpdef, if_neg hguard]
      rw [hptN, Function.update_noteq hp_ne_t, hpt2]
      rw [Prod.mk.injEq]
      constructor
      · refine congrArg (TList.mk s.len) ?_
        funext c
        simp only [Function.update_apply]
        split_ifs <;> first | rfl | omega | (exact hend.symm) | (exact hend)
      · simp [Function.update_apply]
    have hperm : (l1 ++ t :: es).Perm ((l1 ++ [t]) ++ es) := by
      rw [show (l1 ++ [t]) ++ es = l1 ++ t :: es by simp]
    refine ⟨l1, t :: es, by rw [hstate], ?_, hperm⟩
    rw [hstate]
    exact listRepr_build _ l1 (t :: es) ((l1 ++ [t]) ++ es) hchU hchE
      hperm hnd hbnd

/-- C7: every Active-Set Index operation — `list_insert_first`
(acquire_front), `list_insert_index` (acquire_by_index), `list_remove_node`
(release of the visited node), `list_remove_index` (release_by_index), and
the nth/last insert and remove variants — preserves the partition
invariant: afterwards the used chain and the empty chain still hold, between
them, each index `0 .. N-1` exactly once (their contents are a permutation
of `range N`), so the two lengths always sum to `N`; the capacity is
unchanged (the operations write existing cells and never allocate). -/
theorem active_set_partition (op : ListOp) (s : TList) (us es : List ℕ)
    (hrepr : listRepr s us es)
    (hperm : (us ++ es).Perm (List.range s.len))
    (hvalid : opValid op s us) :
    ∃ us' es', listRepr (applyOp op s).1 us' es' ∧
      (us' ++ es').Perm (List.range s.len) ∧
      us'.length + es'.length = s.len ∧
      (applyOp op s).1.len = s.len := by
  have key : ∃ us' es', (applyOp op s).1.len = s.len ∧
      listRepr (applyOp op s).1 us' es' ∧ (us' ++ es').Perm (us ++ es) := by
    cases op with
    | insertFirst => exact list_insert_first_spec s us es hrepr
    | insertLast => exact list_insert_last_spec s us es hrepr
    | insertNth n => exact list_insert_nth_spec s us es n hrepr
    | insertIndex i => exact list_insert_index_spec s us es i hrepr
    | removeNode p =>
      obtain ⟨l1, t, l2, hus, hseg⟩ := hvalid
      exact list_remove_node_spec s us es l1 l2 t p hrepr hus hseg
    | removeLast => exact list_remove_last_spec s us es hrepr
    | removeNth n => exact list_remove_nth_spec s us es n hrepr
    | removeIndex i => exact list_remove_index_spec s us es i hrepr
  obtain ⟨us', es', hlen, hrepr', hp⟩ := key
  have hp2 := hp.trans hperm
  have hlength := hp2.length_eq
  simp only [List.length_append, List.length_range] at hlength
  exact ⟨us', es', hrepr', hp2, hlength, hlen⟩

theorem active_set_partition_witness :
    ∃ us' es', listRepr (applyOp ListOp.insertFirst (list_new 4)).1 us' es' ∧
      (us' ++ es').Perm (List.range (list_new 4).len) ∧
      us'.length + es'.length = (list_new 4).len ∧
      (applyOp ListOp.insertFirst (list_new 4)).1.len = (list_new 4).len :=
  active_set_partition ListOp.insertFirst (list_new 4) [] [0, 1, 2, 3]
    (by decide) (by decide) trivial

/-- C9: when the grain pool is at capacity, the spawn attempt returns no
grain and leaves the entire pool state (count, index list, grain array)
unchanged, while the seeder's schedule state after the scheduler iteration
is identical to what it would be on any other engine — in particular on one
with a free slot, i.e. after a successful spawn. -/
theorem pool_exhaustion_spawn (msr : ℚ) (x : GrainEngine) (sd : Seeder)
    (u : ℚ) (hfull : x.grains_cnt = x.grains_max) :
    (schedStepMain msr x sd u).1 = x ∧
    (granular_add_grain_fs x sd 0 sd.period_cntd0).2 = none ∧
    ∀ x2 : GrainEngine, (schedStepMain msr x sd u).2 =
      (schedStepMain msr x2 sd u).2 := by
  refine ⟨?_, ?_, fun x2 => rfl⟩
  · simp [schedStepMain, granular_add_grain_fs, hfull]
  · simp [granular_add_grain_fs, hfull]

theorem pool_exhaustion_spawn_witness :
    (0 : ℕ) = 0 ∧
    ((schedStepMain 1 ⟨0, 0, list_new 0, fun _ =>
        ⟨0, false, 0, 0, 0, 0, 0, 0, 0, 0, 0, 0⟩⟩
        ⟨0, 1, 0, 10, 20, 7, 0, 1, 100, 1, 0⟩ 0).1 =
      ⟨0, 0, list_new 0, fun _ => ⟨0, false, 0, 0, 0, 0, 0, 0, 0, 0, 0, 0⟩⟩ ∧
    (granular_add_grain_fs ⟨0, 0, list_new 0, fun _ =>
        ⟨0, false, 0, 0, 0, 0, 0, 0, 0, 0, 0, 0⟩⟩
        ⟨0, 1, 0, 10, 20, 7, 0, 1, 100, 1, 0⟩ 0
        (⟨0, 1, 0, 10, 20, 7, 0, 1, 100, 1, 0⟩ : Seeder).period_cntd0).2 =
      none ∧
    ∀ x2 : GrainEngine,
      (schedStepMain 1 ⟨0, 0, list_new 0, fun _ =>
          ⟨0, false, 0, 0, 0, 0, 0, 0, 0, 0, 0, 0⟩⟩
          ⟨0, 1, 0, 10, 20, 7, 0, 1, 100, 1, 0⟩ 0).2 =
        (schedStepMain 1 x2 ⟨0, 1, 0, 10, 20, 7, 0, 1, 100, 1, 0⟩ 0).2) :=
  ⟨rfl, pool_exhaustion_spawn 1 _ _ 0 rfl⟩

theorem grain_countdown_retire_witness :
    1 ≤ 5 ∧ 1 < 3 ∧ 5 ≤ (((3 : ℕ) - 1) :: [4]).sum ∧
    ((runBlocks [3, 4] 1 (5 : ℤ)).rendered = 5 ∧
      (runBlocks [3, 4] 1 (5 : ℤ)).cntd = 0 ∧
      (runBlocks [3, 4] 1 (5 : ℤ)).retired = true ∧
      5 ≤ ((((3 : ℕ) - 1) :: [4]).take (runBlocks [3, 4] 1 (5 : ℤ)).passes).sum ∧
      ((((3 : ℕ) - 1) :: [4]).take
          ((runBlocks [3, 4] 1 (5 : ℤ)).passes - 1)).sum < 5 ∧
      ∀ m : ℕ, 0 ≤ (runBlocks (List.take m [3, 4]) 1 (5 : ℤ)).cntd) :=
  ⟨by decide, by decide, by decide,
    grain_countdown_retire 5 (by decide) 3 [4] 1 (by decide) (by decide)⟩

end Granular
